import Mathlib

/-!
Shallow embedding of the trait-implementation resolution engine
(`sway-core/src/semantic_analysis/namespace/trait_map.rs`) and proofs of the
specification's claims about it.

Modelling conventions:
* `TypeId` and `Span` are opaque handles (naturals).
* `TypeInfo` stores nested types inline as trees.  The Rust code stores nested
  `TypeId`s and re-resolves them through the type engine at every step; inlining
  the (alias-free) resolved trees makes the recursions structural.  Aliases are
  resolved by the engine's `getUnaliasedId`/`getInfo` functions, so the tree has
  no alias constructor.
* External collaborators (the `UnifyCheck` type-relation oracle, the
  declaration store, hashing, display) are fields of an `Engines` structure:
  they are out of scope for the spec and consumed as black boxes.
* `HashMap`s are modelled as association lists with replace-in-place insertion;
  Rust hash-map iteration order is unspecified, and the code under proof sorts
  keys wherever order is observable.
* Diagnostics (`Handler`) are modelled by returning the list of emitted
  diagnostics; `Handler::scope` returns failure exactly when the scoped
  computation emitted at least one error.
-/

set_option linter.unusedVariables false

namespace Sway

/-- Opaque handle into the type engine's table (`TypeId` in the source). -/
abbrev TypeId := Nat

/-- Opaque source span (`Span`); only cloned into records and diagnostics. -/
abbrev Span := Nat

/-- Identifiers (`Ident`/`BaseIdent`) compared and ordered by their text. -/
abbrev Ident := String

/-- Qualified path with a plain identifier suffix (`CallPath` over `Ident`). -/
structure CallPathIdent where
  prefixes : List Ident
  suffix : Ident
  deriving DecidableEq, Repr

/-- Trait bound from a `where`-clause (`TraitConstraint`): the trait path plus its type
    arguments.  A `TypeArgument` is modelled by the `TypeId` it carries, the only field
    the engine inspects. -/
structure TraitConstraint where
  traitName : CallPathIdent
  typeArguments : List TypeId
  deriving DecidableEq, Repr

/-- Generic parameter slot (`TypeParameter`): its type handle and the trait bounds on it. -/
structure TypeParameter where
  typeId : TypeId
  traitConstraints : List TraitConstraint
  deriving DecidableEq, Repr

/-- Integer widths (`IntegerBits`). -/
inductive IntegerBits where
  | eight
  | sixteen
  | thirtyTwo
  | sixtyFour
  | v256
  deriving DecidableEq, Repr

/-- Shallow model of `TypeInfo`, restricted to the variants the claims exercise.
    Nested types are stored inline (see the module comment); aliases are already
    resolved away, so there is no `Alias` constructor. -/
inductive TypeInfo where
  | unknownGeneric (name : Ident) (isFromTypeParameter : Bool)
  | placeholder
  | unsignedInteger (bits : IntegerBits)
  | boolean
  | custom (name : Ident) (typeArguments : Option (List TypeId))
  | enumInfo (declId : Nat) (typeParameters : List TypeParameter)
  | structInfo (declId : Nat) (typeParameters : List TypeParameter)
  | ref (toMutableValue : Bool) (referencedType : TypeInfo)
  | errorRecovery
  deriving DecidableEq, Repr

/-- `TypeRootFilter` bucket key.  Constructors are kept in the source enum's relative
    order so the derived order agrees with the Rust `derive(Ord)`; only variants
    producible by the modelled `TypeInfo` are included. -/
inductive TypeRootFilter where
  | placeholder
  | u8
  | u16
  | u32
  | u64
  | u256
  | boolean
  | custom (name : String)
  | errorRecovery
  | enumFilter (declId : Nat)
  | structFilter (declId : Nat)
  deriving DecidableEq, Ord, Repr

/-- Tag of a `TyTraitItem` variant. -/
inductive ItemKind where
  | fnItem
  | constantItem
  | typeItem
  deriving DecidableEq, Repr

/-- Model of `ResolvedTraitImplItem::Typed`.  The `Parsed` variant hits `todo!()` on every
    code path the claims exercise and is omitted.  `isTraitMethodDummy` is the declaration's
    `is_trait_method_dummy` flag and `declId` its handle in the declaration store. -/
structure Item where
  kind : ItemKind
  name : String
  isTraitMethodDummy : Bool
  span : Span
  declId : Nat
  deriving DecidableEq, Repr

/-- `TraitItems = HashMap<String, ResolvedTraitImplItem>`, as an association list with
    `HashMap::insert` replace-in-place semantics. -/
abbrev TraitItems := List (String × Item)

/-- `HashMap::get`. -/
def lookupS (m : TraitItems) (k : String) : Option Item :=
  (m.find? (fun p => p.1 == k)).map Prod.snd

/-- `HashMap::insert`: replace the value in place when the key exists, else append. -/
def insertS (m : TraitItems) (k : String) (v : Item) : TraitItems :=
  match m with
  | [] => [(k, v)]
  | p :: rest => if p.1 = k then (k, v) :: rest else p :: insertS rest k v

/-- `HashMap::extend`: the other map's value wins on a key collision. -/
def extendS (m other : TraitItems) : TraitItems :=
  other.foldl (fun acc p => insertS acc p.1 p.2) m

/-- `TraitSuffix`: trait identifier plus the trait's type arguments at the impl site. -/
structure TraitSuffix where
  name : Ident
  args : List TypeId
  deriving DecidableEq, Repr

/-- `TraitName = Arc<CallPath<TraitSuffix>>`; the `Arc` is sharing only and is dropped. -/
structure TraitName where
  prefixes : List Ident
  suffix : TraitSuffix
  deriving DecidableEq, Repr

/-- `TraitKey`. -/
structure TraitKey where
  name : TraitName
  typeId : TypeId
  typeIdTypeParameters : List TypeParameter
  traitDeclSpan : Option Span
  deriving DecidableEq, Repr

/-- `TraitValue`. -/
structure TraitValue where
  traitItems : TraitItems
  implSpan : Span
  deriving DecidableEq, Repr

/-- `TraitEntry`. -/
structure TraitEntry where
  key : TraitKey
  value : TraitValue
  deriving DecidableEq, Repr

/-- `TraitImpls = HashMap<TypeRootFilter, Vec<TraitEntry>>` as an association list. -/
abbrev TraitImpls := List (TypeRootFilter × List TraitEntry)

/-- `TraitMap`. -/
structure TraitMap where
  traitImpls : TraitImpls
  satisfiedCache : List Nat
  insertForTypeCache : List TypeId
  deriving DecidableEq, Repr

/-- Lexicographic composition of comparisons (`cmp(..).then_with(..)` in the source). -/
def thenCmp (f g : α → α → Ordering) : α → α → Ordering :=
  fun a b => (f a b).then (g a b)

/-- Compare through a projection. -/
def onCmp (f : α → β) (c : β → β → Ordering) : α → α → Ordering :=
  fun a b => c (f a) (f b)

/-- `Vec`/slice lexicographic comparison (a strict prefix is less). -/
def listCmp (c : α → α → Ordering) : List α → List α → Ordering
  | [], [] => .eq
  | [], _ :: _ => .lt
  | _ :: _, [] => .gt
  | a :: l1, b :: l2 => (c a b).then (listCmp c l1 l2)

/-- Comparison induced by a linear order (fixes one instance path for `cmp`). -/
def linCmp {β : Type} [LinearOrder β] (a b : β) : Ordering := cmp a b

/-- Comparison of opaque handles. -/
def natCmp : Nat → Nat → Ordering := linCmp

/-- Comparison of characters by code point. -/
def charCmp : Char → Char → Ordering := onCmp Char.toNat natCmp

/-- Comparison of identifiers: lexicographic on the character sequence. -/
def strCmp : String → String → Ordering := onCmp String.toList (listCmp charCmp)

/-- `OrdWithEngines` for `TraitSuffix`: name, then args. -/
def cmpTraitSuffix : TraitSuffix → TraitSuffix → Ordering :=
  thenCmp (onCmp TraitSuffix.name strCmp) (onCmp TraitSuffix.args (listCmp natCmp))

/-- Modelled from the spec: the `OrdWithEngines` instance of `CallPath` lives outside
    src/; per the spec's "ordering is lexicographic: trait name ..." it is modelled as
    lexicographic prefixes-then-suffix. -/
def cmpTraitName : TraitName → TraitName → Ordering :=
  thenCmp (onCmp TraitName.prefixes (listCmp strCmp)) (onCmp TraitName.suffix cmpTraitSuffix)

/-- Lexicographic comparison of plain call paths. -/
def cmpCallPathIdent : CallPathIdent → CallPathIdent → Ordering :=
  thenCmp (onCmp CallPathIdent.prefixes (listCmp strCmp)) (onCmp CallPathIdent.suffix strCmp)

/-- Modelled from the spec: ordering of `TraitConstraint` (external `OrdWithEngines`),
    lexicographic on trait path then arguments. -/
def cmpTraitConstraint : TraitConstraint → TraitConstraint → Ordering :=
  thenCmp (onCmp TraitConstraint.traitName cmpCallPathIdent)
    (onCmp TraitConstraint.typeArguments (listCmp natCmp))

/-- Modelled from the spec: ordering of `TypeParameter` (external `OrdWithEngines`),
    lexicographic on type handle then constraints. -/
def cmpTypeParameter : TypeParameter → TypeParameter → Ordering :=
  thenCmp (onCmp TypeParameter.typeId natCmp)
    (onCmp TypeParameter.traitConstraints (listCmp cmpTraitConstraint))

/-- `OrdWithEngines` for `TraitKey` (source lines 109–118): trait name, then type handle,
    then type parameters; `trait_decl_span` is not compared. -/
def cmpTraitKey : TraitKey → TraitKey → Ordering :=
  thenCmp (onCmp TraitKey.name cmpTraitName)
    (thenCmp (onCmp TraitKey.typeId natCmp)
      (onCmp TraitKey.typeIdTypeParameters (listCmp cmpTypeParameter)))

/-- Lawfulness of an `Ordering`-valued comparison: antisymmetric swap, transitive
    strict part, and left congruence of the equal part.  Enough to reason about
    sorted buckets and binary search. -/
structure CmpLaws (c : α → α → Ordering) : Prop where
  swapEq : ∀ a b, (c a b).swap = c b a
  ltTrans : ∀ {a b d}, c a b = .lt → c b d = .lt → c a d = .lt
  eqLeft : ∀ {a b}, c a b = .eq → ∀ d, c a d = c b d

theorem CmpLaws.eqRefl {c : α → α → Ordering} (h : CmpLaws c) (a : α) : c a a = .eq := by
  have hs := h.swapEq a a
  cases hc : c a a with
  | lt => rw [hc] at hs; simp [Ordering.swap] at hs
  | eq => rfl
  | gt => rw [hc] at hs; simp [Ordering.swap] at hs

theorem CmpLaws.eqSymm {c : α → α → Ordering} (h : CmpLaws c) {a b : α}
    (hab : c a b = .eq) : c b a = .eq := by
  have hs := h.swapEq a b
  rw [hab] at hs
  simpa [Ordering.swap] using hs.symm

theorem CmpLaws.eqRight {c : α → α → Ordering} (h : CmpLaws c) {a b : α}
    (hab : c a b = .eq) (d : α) : c d a = c d b := by
  rw [← h.swapEq a d, h.eqLeft hab d, h.swapEq b d]

theorem CmpLaws.gtOfLt {c : α → α → Ordering} (h : CmpLaws c) {a b : α}
    (hab : c a b = .lt) : c b a = .gt := by
  have hs := h.swapEq a b
  rw [hab] at hs
  simpa [Ordering.swap] using hs.symm

theorem CmpLaws.ltOfGt {c : α → α → Ordering} (h : CmpLaws c) {a b : α}
    (hab : c a b = .gt) : c b a = .lt := by
  have hs := h.swapEq a b
  rw [hab] at hs
  simpa [Ordering.swap] using hs.symm

theorem CmpLaws.ltEqTrans {c : α → α → Ordering} (h : CmpLaws c) {a b d : α}
    (h1 : c a b = .lt) (h2 : c b d = .eq) : c a d = .lt := by
  rw [← h.eqRight h2 a]
  exact h1

theorem CmpLaws.eqLtTrans {c : α → α → Ordering} (h : CmpLaws c) {a b d : α}
    (h1 : c a b = .eq) (h2 : c b d = .lt) : c a d = .lt := by
  rw [h.eqLeft h1 d]
  exact h2

theorem CmpLaws.gtTrans {c : α → α → Ordering} (h : CmpLaws c) {a b d : α}
    (h1 : c a b = .gt) (h2 : c b d = .gt) : c a d = .gt := by
  have := h.ltTrans (h.ltOfGt h2) (h.ltOfGt h1)
  exact h.gtOfLt this

theorem cmpLaws_cmp [LinearOrder β] : CmpLaws (fun a b : β => cmp a b) where
  swapEq := fun a b => cmp_swap a b
  ltTrans := by
    intro a b d h1 h2
    rw [cmp_eq_lt_iff] at h1 h2 ⊢
    exact lt_trans h1 h2
  eqLeft := by
    intro a b h1 d
    rw [cmp_eq_eq_iff] at h1
    rw [h1]

theorem cmpLaws_onCmp (f : α → β) {c : β → β → Ordering} (h : CmpLaws c) :
    CmpLaws (onCmp f c) where
  swapEq := fun a b => h.swapEq (f a) (f b)
  ltTrans := fun h1 h2 => h.ltTrans h1 h2
  eqLeft := fun h1 d => h.eqLeft h1 (f d)

theorem Ordering.then_eq_eq {a b : Ordering} :
    a.then b = .eq ↔ a = .eq ∧ b = .eq := by
  cases a <;> simp [Ordering.then]

theorem Ordering.then_eq_lt {a b : Ordering} :
    a.then b = .lt ↔ a = .lt ∨ (a = .eq ∧ b = .lt) := by
  cases a <;> simp [Ordering.then]

theorem Ordering.swap_then (a b : Ordering) :
    (a.then b).swap = a.swap.then b.swap := by
  cases a <;> simp [Ordering.then, Ordering.swap]

theorem cmpLaws_thenCmp {f g : α → α → Ordering} (hf : CmpLaws f) (hg : CmpLaws g) :
    CmpLaws (thenCmp f g) where
  swapEq := by
    intro a b
    simp only [thenCmp, Ordering.swap_then, hf.swapEq, hg.swapEq]
  ltTrans := by
    intro a b d h1 h2
    simp only [thenCmp, Ordering.then_eq_lt] at h1 h2 ⊢
    rcases h1 with h1 | ⟨h1e, h1g⟩
    · rcases h2 with h2 | ⟨h2e, h2g⟩
      · exact Or.inl (hf.ltTrans h1 h2)
      · exact Or.inl (hf.ltEqTrans h1 h2e)
    · rcases h2 with h2 | ⟨h2e, h2g⟩
      · exact Or.inl (hf.eqLtTrans h1e h2)
      · refine Or.inr ⟨?_, ?_⟩
        · rw [hf.eqLeft h1e d]; exact h2e
        · exact hg.ltTrans h1g h2g
  eqLeft := by
    intro a b h1 d
    simp only [thenCmp, Ordering.then_eq_eq] at h1
    simp only [thenCmp, hf.eqLeft h1.1 d, hg.eqLeft h1.2 d]

theorem cmpLaws_listCmp {c : α → α → Ordering} (h : CmpLaws c) : CmpLaws (listCmp c) := by
  refine ⟨?_, ?_, ?_⟩
  · intro a b
    induction a generalizing b with
    | nil => cases b <;> simp [listCmp, Ordering.swap]
    | cons x l ih =>
      cases b with
      | nil => simp [listCmp, Ordering.swap]
      | cons y m => simp [listCmp, Ordering.swap_then, h.swapEq, ih]
  · intro a b d h1 h2
    induction a generalizing b d with
    | nil =>
      cases b with
      | nil => simp [listCmp] at h1
      | cons y m =>
        cases d with
        | nil => simp [listCmp] at h2
        | cons z k => simp [listCmp]
    | cons x l ih =>
      cases b with
      | nil => simp [listCmp] at h1
      | cons y m =>
        cases d with
        | nil => simp [listCmp] at h2
        | cons z k =>
          simp only [listCmp, Ordering.then_eq_lt] at h1 h2 ⊢
          rcases h1 with h1 | ⟨h1e, h1t⟩
          · rcases h2 with h2 | ⟨h2e, h2t⟩
            · exact Or.inl (h.ltTrans h1 h2)
            · exact Or.inl (h.ltEqTrans h1 h2e)
          · rcases h2 with h2 | ⟨h2e, h2t⟩
            · exact Or.inl (h.eqLtTrans h1e h2)
            · exact Or.inr ⟨by rw [h.eqLeft h1e z]; exact h2e, ih h1t h2t⟩
  · intro a b h1 d
    induction a generalizing b d with
    | nil =>
      cases b with
      | nil => cases d <;> simp [listCmp]
      | cons y m => simp [listCmp] at h1
    | cons x l ih =>
      cases b with
      | nil => simp [listCmp] at h1
      | cons y m =>
        simp only [listCmp, Ordering.then_eq_eq] at h1
        cases d with
        | nil => simp [listCmp]
        | cons z k => simp only [listCmp, h.eqLeft h1.1 z, ih h1.2 k]

theorem cmpLaws_linCmp {β : Type} [LinearOrder β] : CmpLaws (linCmp (β := β)) := by
  unfold linCmp
  exact cmpLaws_cmp (β := β)

theorem cmpLaws_natCmp : CmpLaws natCmp := cmpLaws_linCmp

theorem cmpLaws_charCmp : CmpLaws charCmp := cmpLaws_onCmp _ cmpLaws_natCmp

theorem cmpLaws_strCmp : CmpLaws strCmp :=
  cmpLaws_onCmp _ (cmpLaws_listCmp cmpLaws_charCmp)

theorem cmpLaws_cmpTraitSuffix : CmpLaws cmpTraitSuffix :=
  cmpLaws_thenCmp (cmpLaws_onCmp _ cmpLaws_strCmp)
    (cmpLaws_onCmp _ (cmpLaws_listCmp cmpLaws_natCmp))

theorem cmpLaws_cmpTraitName : CmpLaws cmpTraitName :=
  cmpLaws_thenCmp (cmpLaws_onCmp _ (cmpLaws_listCmp cmpLaws_strCmp))
    (cmpLaws_onCmp _ cmpLaws_cmpTraitSuffix)

theorem cmpLaws_cmpCallPathIdent : CmpLaws cmpCallPathIdent :=
  cmpLaws_thenCmp (cmpLaws_onCmp _ (cmpLaws_listCmp cmpLaws_strCmp))
    (cmpLaws_onCmp _ cmpLaws_strCmp)

theorem cmpLaws_cmpTraitConstraint : CmpLaws cmpTraitConstraint :=
  cmpLaws_thenCmp (cmpLaws_onCmp _ cmpLaws_cmpCallPathIdent)
    (cmpLaws_onCmp _ (cmpLaws_listCmp cmpLaws_natCmp))

theorem cmpLaws_cmpTypeParameter : CmpLaws cmpTypeParameter :=
  cmpLaws_thenCmp (cmpLaws_onCmp _ cmpLaws_natCmp)
    (cmpLaws_onCmp _ (cmpLaws_listCmp cmpLaws_cmpTraitConstraint))

theorem cmpLaws_cmpTraitKey : CmpLaws cmpTraitKey :=
  cmpLaws_thenCmp (cmpLaws_onCmp _ cmpLaws_cmpTraitName)
    (cmpLaws_thenCmp (cmpLaws_onCmp _ cmpLaws_natCmp)
      (cmpLaws_onCmp _ (cmpLaws_listCmp cmpLaws_cmpTypeParameter)))

/-- External engines consumed as black boxes (spec §2, §6).  Every field is an interface
    the trait-resolution core calls but does not define; the fields marked "Modelled from
    the spec" stand for repository code outside src/. -/
structure Engines where
  /-- `TypeEngine::get`, returning the (alias-free) resolved tree for a handle. -/
  getInfo : TypeId → TypeInfo
  /-- `TypeEngine::get_unaliased_type_id`. -/
  getUnaliasedId : TypeId → TypeId
  /-- Modelled from the spec: `decayNumericDefault` (§6); `true` means the numeric-default
      decay succeeded. -/
  decayNumeric : TypeId → Bool
  /-- Modelled from the spec: `TypeEngine::new_custom` (the interner producing a handle for
      a named trait-type); modelled as a deterministic function of its arguments. -/
  newCustom : Ident → Option (List TypeId) → TypeId
  /-- Modelled from the spec: `TypeId::is_concrete(engines, TreatNumericAs::Abstract)`. -/
  isConcrete : TypeId → Bool
  /-- `UnifyCheck::non_generic_constraint_subset(engines).check` (oracle, spec §6). -/
  nonGenericConstraintSubset : TypeId → TypeId → Bool
  /-- `UnifyCheck::constraint_subset(engines).check` (oracle, spec §6). -/
  constraintSubset : TypeId → TypeId → Bool
  /-- Modelled from the spec: the deterministic hash over `(type, constraints)` used as the
      `satisfied_cache` key (§4.5 step 3). -/
  hashQuery : TypeId → List TraitConstraint → Nat
  /-- Modelled from the spec: display of a type handle (`engines.help_out(type_id)`). -/
  showTypeId : TypeId → String
  /-- Modelled from the spec: `make_item_for_type_mapping`'s declaration-store
      clone–substitute–reinsert, as a function of the item, the stored (superset) type and
      the query (subset) type. -/
  substItem : Item → TypeId → TypeId → Item

/-- `TypeEngine::get_unaliased`. -/
def getUnaliasedInfo (eng : Engines) (t : TypeId) : TypeInfo :=
  eng.getInfo (eng.getUnaliasedId t)

/-- `TraitMap::get_type_root_filter` on a resolved tree (the source recurses through the
    engine for `Alias` and `Ref`; aliases are pre-resolved in this model). -/
def getTypeRootFilterInfo : TypeInfo → TypeRootFilter
  | .unknownGeneric _ _ => .placeholder
  | .placeholder => .placeholder
  | .unsignedInteger .eight => .u8
  | .unsignedInteger .sixteen => .u16
  | .unsignedInteger .thirtyTwo => .u32
  | .unsignedInteger .sixtyFour => .u64
  | .unsignedInteger .v256 => .u256
  | .boolean => .boolean
  | .custom name _ => .custom name
  | .enumInfo declId _ => .enumFilter declId
  | .structInfo declId _ => .structFilter declId
  | .ref _ referencedType => getTypeRootFilterInfo referencedType
  | .errorRecovery => .errorRecovery

/-- `TraitMap::get_type_root_filter`. -/
def getTypeRootFilter (eng : Engines) (typeId : TypeId) : TypeRootFilter :=
  getTypeRootFilterInfo (eng.getInfo typeId)

/-- `HashMap::get` on the bucket map. -/
def implsLookup (ti : TraitImpls) (k : TypeRootFilter) : Option (List TraitEntry) :=
  (ti.find? (fun p => p.1 == k)).map Prod.snd

/-- `HashMap::insert` on the bucket map. -/
def implsInsert (ti : TraitImpls) (k : TypeRootFilter) (v : List TraitEntry) : TraitImpls :=
  match ti with
  | [] => [(k, v)]
  | p :: rest => if p.1 = k then (k, v) :: rest else p :: implsInsert rest k v

/-- Loop of `slice::binary_search_by`, with the range size as fuel.  `f` compares a probed
    element against the searched key. -/
def bsGo (f : α → Ordering) (xs : List α) : Nat → Nat → Nat → Except Nat Nat
  | 0, left, _ => .error left
  | fuel + 1, left, right =>
    if left < right then
      let mid := left + (right - left) / 2
      match xs.get? mid with
      | none => .error left
      | some x =>
        match f x with
        | .lt => bsGo f xs fuel (mid + 1) right
        | .gt => bsGo f xs fuel left mid
        | .eq => .ok mid
    else .error left

/-- `slice::binary_search_by`: `.ok i` when the probe at `i` compares equal, `.error i`
    with the insertion point otherwise. -/
def binarySearchBy (f : α → Ordering) (xs : List α) : Except Nat Nat :=
  bsGo f xs (xs.length + 1) 0 xs.length

/-- One record-merge step of `TraitMap::extend` (source lines 559–571): binary-search the
    target bucket by `TraitKey` ordering; on a hit extend that record's item map (the new
    items win on name collision), on a miss insert at the reported sorted position. -/
def bucketStep (sv : List TraitEntry) (oe : TraitEntry) : List TraitEntry :=
  match binarySearchBy (fun se => cmpTraitKey se.key oe.key) sv with
  | .ok pos =>
    match sv.get? pos with
    | some se =>
      sv.take pos ++
        { se with value :=
            { se.value with traitItems := extendS se.value.traitItems oe.value.traitItems } } ::
        sv.drop (pos + 1)
    | none => sv
  | .error pos => sv.take pos ++ oe :: sv.drop pos

/-- All record-merge steps for one bucket of `other`. -/
def extendBucket (sv : List TraitEntry) (oes : List TraitEntry) : List TraitEntry :=
  oes.foldl bucketStep sv

/-- Order on bucket keys used to visit `other`'s keys deterministically (`impls_keys.sort()`). -/
def trfLE (a b : TypeRootFilter) : Prop := compare a b ≠ Ordering.gt

instance : DecidableRel trfLE := fun a b => instDecidableNot

/-- `TraitMap::extend` (source lines 546–573).  The `engines` parameter carries the
    ordering context in the source; the modelled ordering does not consult it. -/
def TraitMap.extend (eng : Engines) (tm other : TraitMap) : TraitMap :=
  let implsKeys := List.insertionSort trfLE (other.traitImpls.map Prod.fst)
  { tm with
    traitImpls :=
      implsKeys.foldl
        (fun acc k =>
          let oeVec := (implsLookup other.traitImpls k).getD []
          let selfVec := (implsLookup acc k).getD []
          implsInsert acc k (extendBucket selfVec oeVec))
        tm.traitImpls }

/-- `TraitMap::insert_inner` (source lines 510–542): build a one-entry map and `extend`. -/
def TraitMap.insertInner (eng : Engines) (tm : TraitMap) (traitName : TraitName)
    (implSpan : Span) (traitDeclSpan : Option Span) (typeId : TypeId)
    (typeIdTypeParameters : List TypeParameter) (traitMethods : TraitItems) : TraitMap :=
  let key : TraitKey := ⟨traitName, typeId, typeIdTypeParameters, traitDeclSpan⟩
  let value : TraitValue := ⟨traitMethods, implSpan⟩
  let entry : TraitEntry := ⟨key, value⟩
  let typeRootFilter := getTypeRootFilter eng typeId
  let single : TraitMap := ⟨[(typeRootFilter, [entry])], [], []⟩
  TraitMap.extend eng tm single

/-- `TraitMap::get_impls` (source lines 1515–1536): the query type's own bucket, extended
    with the `Placeholder` bucket when asked and the own bucket is not itself `Placeholder`. -/
def TraitMap.getImpls (eng : Engines) (tm : TraitMap) (typeId : TypeId)
    (extendWithPlaceholder : Bool) : List TraitEntry :=
  let typeRootFilter := getTypeRootFilter eng typeId
  let vec := (implsLookup tm.traitImpls typeRootFilter).getD []
  if extendWithPlaceholder && typeRootFilter != TypeRootFilter.placeholder then
    vec ++ (implsLookup tm.traitImpls TypeRootFilter.placeholder).getD []
  else vec

/-- `TraitMap::get_impls_mut` (source lines 1505–1513): ensure the bucket exists and
    return (mutated map, bucket). -/
def TraitMap.getImplsMut (eng : Engines) (tm : TraitMap) (typeId : TypeId) :
    TraitMap × List TraitEntry :=
  let typeRootFilter := getTypeRootFilter eng typeId
  let ti :=
    if (implsLookup tm.traitImpls typeRootFilter).isSome then tm.traitImpls
    else implsInsert tm.traitImpls typeRootFilter []
  ({ tm with traitImpls := ti }, (implsLookup ti typeRootFilter).getD [])

/-- `is_unified_type_subset` (source lines 336–373): `&`/`&mut` layers are unwrapped
    pairwise; differing mutability at any level fails; any non-double-reference shape
    succeeds. -/
def isUnifiedTypeSubset : TypeInfo → TypeInfo → Bool
  | .ref lMut lTy, .ref rMut rTy =>
    if lMut != rMut then false else isUnifiedTypeSubset lTy rTy
  | _, _ => true

/-- Lexical scope chain owning one `TraitMap` per scope; the current (innermost) scope
    first.  `walk_scope_chain` visits `scopes` in order; `current_lexical_scope_mut` and
    `current_items_mut` address `current`. -/
structure Module where
  current : TraitMap
  outerScopes : List TraitMap
  deriving DecidableEq, Repr

/-- Scope chain in visiting order. -/
def Module.scopes (m : Module) : List TraitMap := m.current :: m.outerScopes

/-- The diagnostics (`CompileError` variants) the engine can emit (spec §7). -/
inductive Diagnostic where
  | conflictingImplsForTraitAndType (traitName : String) (typeImplementingFor : String)
      (existingImplSpan : Span) (secondImplSpan : Span)
  | duplicateDeclDefinedForType (declKind : String) (declName : String)
      (typeImplementingFor : String) (span : Span)
  | multipleDefinitionsOfName (name : Ident) (span : Span)
  | traitConstraintNotSatisfied (typeId : TypeId) (ty : String) (traitName : String)
      (span : Span)
  | multipleApplicableItemsInScope (itemName : String) (itemKind : String)
      (asTraits : List (String × String)) (itemPaths : List Span)
  | symbolNotFound (name : Ident)
  | numericDecayFailed (typeId : TypeId) (span : Span)
  deriving DecidableEq, Repr

/-- Render a type-argument list (`<a, b>`; empty for no arguments). -/
def renderArgs (eng : Engines) (args : List TypeId) : String :=
  if args.isEmpty then ""
  else "<" ++ String.intercalate ", " (args.map eng.showTypeId) ++ ">"

/-- `CallPath::to_string`. -/
def callPathToString (cp : CallPathIdent) : String :=
  String.intercalate "::" (cp.prefixes ++ [cp.suffix])

/-- `CallPath::to_string_with_args`. -/
def toStringWithArgs (eng : Engines) (cp : CallPathIdent) (args : List TypeId) : String :=
  callPathToString cp ++ renderArgs eng args

/-- `DisplayWithEngines` for `TraitSuffix` (source lines 74–91). -/
def traitSuffixToString (eng : Engines) (s : TraitSuffix) : String :=
  s.name ++ renderArgs eng s.args

/-- Display of a full `TraitName` path. -/
def traitNameToString (eng : Engines) (tn : TraitName) : String :=
  String.intercalate "::" (tn.prefixes ++ [traitSuffixToString eng tn.suffix])

/-- `TraitMap::get_implemented_traits` (source lines 1344–1376): from this map's scan
    (placeholder-extended), the `(trait identifier, interned trait-type handle)` pairs whose
    implementing type accepts the query type under the constraint-subset oracle.  The
    source collects into a `BTreeSet`; the model keeps a list, which is
    membership-equivalent. -/
def TraitMap.getImplementedTraits (eng : Engines) (tm : TraitMap) (typeId : TypeId) :
    List (Ident × TypeId) :=
  (TraitMap.getImpls eng tm typeId true).filterMap fun e =>
    if eng.constraintSubset typeId e.key.typeId then
      some (e.key.name.suffix.name,
        eng.newCustom e.key.name.suffix.name
          (if e.key.name.suffix.args.isEmpty then none else some e.key.name.suffix.args))
    else none

/-- `TraitMap::get_all_implemented_traits` (source lines 1326–1342): union over the scope
    chain. -/
def getAllImplementedTraits (eng : Engines) (m : Module) (typeId : TypeId) :
    List (Ident × TypeId) :=
  m.scopes.foldl (fun acc s => acc ++ TraitMap.getImplementedTraits eng s typeId) []

/-- Duplicate collapse of a `BTreeSet`, keeping first occurrences (the set's sorted
    iteration order is not observed by any claim). -/
def dedupFirst : List (Ident × TypeId) → List (Ident × TypeId)
  | [] => []
  | x :: rest => x :: (dedupFirst rest).filter (fun y => y ≠ x)

/-- The `required_traits` set of `check_if_trait_constraints_are_satisfied_for_type_inner`
    (source lines 1390–1408); the `BTreeSet` collapse of duplicates is modelled by
    `dedupFirst`. -/
def requiredTraitsOf (eng : Engines) (constraints : List TraitConstraint) :
    List (Ident × TypeId) :=
  dedupFirst (constraints.map fun c =>
    (c.traitName.suffix,
      eng.newCustom c.traitName.suffix
        (if c.typeArguments.isEmpty then none else some c.typeArguments)))

/-- Membership test of one required trait in the collected implemented set (source lines
    1412–1419): identifier equality plus the oracle subset check on the trait-type handle. -/
def constraintMatches (eng : Engines) (allImpld : List (Ident × TypeId))
    (r : Ident × TypeId) : Bool :=
  allImpld.any fun it => it.1 == r.1 && eng.constraintSubset it.2 r.2

/-- Argument rendering for the `TraitConstraintNotSatisfied` message (source lines
    1424–1431). -/
def customArgsString (eng : Engines) (t : TypeId) : String :=
  match eng.getInfo t with
  | .custom _ (some args) => "<" ++ String.intercalate ", " (args.map eng.showTypeId) ++ ">"
  | _ => ""

/-- `check_if_trait_constraints_are_satisfied_for_type_inner` (source lines 1379–1444):
    one `TraitConstraintNotSatisfied` per unmatched required constraint; success iff none. -/
def checkConstraintsInner (eng : Engines) (typeId : TypeId)
    (constraints : List TraitConstraint) (accessSpan : Span)
    (allImpld : List (Ident × TypeId)) : List Diagnostic × Bool :=
  let required := requiredTraitsOf eng constraints
  let notFound := required.filter fun r => !constraintMatches eng allImpld r
  (notFound.map fun r =>
      Diagnostic.traitConstraintNotSatisfied typeId (eng.showTypeId typeId)
        (r.1 ++ customArgsString eng r.2) accessSpan,
    notFound.isEmpty)

/-- `TraitMap::check_if_trait_constraints_are_satisfied_for_type` (source lines
    1271–1324).  Returns the possibly cache-extended module, the emitted diagnostics, and
    the success flag (`Ok`/`Err` of the source). -/
def checkIfTraitConstraintsAreSatisfiedForType (eng : Engines) (m : Module)
    (typeId0 : TypeId) (constraints : List TraitConstraint) (accessSpan : Span) :
    Module × List Diagnostic × Bool :=
  let typeId := eng.getUnaliasedId typeId0
  if !eng.decayNumeric typeId then
    (m, [Diagnostic.numericDecayFailed typeId accessSpan], false)
  else if constraints.isEmpty then (m, [], true)
  else
    let h := eng.hashQuery typeId constraints
    if h ∈ m.current.satisfiedCache then (m, [], true)
    else
      let allImpld := getAllImplementedTraits eng m typeId
      let inner := checkConstraintsInner eng typeId constraints accessSpan allImpld
      if inner.2 then
        ({ m with current :=
            { m.current with satisfiedCache := h :: m.current.satisfiedCache } },
          inner.1, true)
      else (m, inner.1, false)

/-- Source lines 250–266: derive the implementing type's own declared parameters and copy
    in the impl's trait constraints for matching handles (`filter(..).last()`). -/
def insertTypeParams (eng : Engines) (implTypeParameters : List TypeParameter)
    (typeId : TypeId) : List TypeParameter :=
  let base :=
    match eng.getInfo typeId with
    | .enumInfo _ ps => ps
    | .structInfo _ ps => ps
    | _ => []
  base.map fun p =>
    match (implTypeParameters.filter (fun t => t.typeId == p.typeId)).getLast? with
    | some ip => { p with traitConstraints := ip.traitConstraints }
    | none => p

/-- Source lines 269–294: build the candidate item map; a function item displacing an
    earlier entry of the same name raises `MultipleDefinitionsOfName`. -/
def buildTraitItems (items : List Item) : TraitItems × List Diagnostic :=
  items.foldl
    (fun acc item =>
      match item.kind with
      | .fnItem =>
        let dup := (lookupS acc.1 item.name).isSome
        (insertS acc.1 item.name item,
          acc.2 ++ if dup then [Diagnostic.multipleDefinitionsOfName item.name item.span]
            else [])
      | _ => (insertS acc.1 item.name item, acc.2))
    ([], [])

/-- Sorted iteration of the new item names (`names.sort()`, source line 433). -/
def sortedStrings (l : List String) : List String :=
  List.insertionSort (fun a b => strCmp a b ≠ Ordering.gt) l

/-- Kind tag used in `DuplicateDeclDefinedForType` (source lines 439–480). -/
def declKindOf : ItemKind → String
  | .fnItem => "method"
  | .constantItem => "constant"
  | .typeItem => "type"

/-- Source lines 429–484: per colliding item name, a `DuplicateDeclDefinedForType`
    diagnostic, visiting the new names in sorted order. -/
def dupDeclDiags (eng : Engines) (traitItems mapTraitItems : TraitItems)
    (typeId : TypeId) : List Diagnostic :=
  (sortedStrings (traitItems.map Prod.fst)).foldl
    (fun diags name =>
      match lookupS traitItems name with
      | some item =>
        if (lookupS mapTraitItems name).isSome then
          diags ++ [Diagnostic.duplicateDeclDefinedForType (declKindOf item.kind) item.name
            (eng.showTypeId typeId) item.span]
        else diags
      | none => diags)
    []

/-- Source lines 390–416: the constraint-lineup check against one existing record.  For
    every matching pair of generic-parameter slots, a concrete new slot must satisfy the
    existing slot's bounds (checked with a discarded handler, but threading the module so
    cache growth persists). -/
def constraintsLineUp (eng : Engines) (m : Module)
    (mapParams newParams : List TypeParameter) (implSpan : Span) : Module × Bool :=
  (mapParams.zip newParams).foldl
    (fun st pp =>
      if eng.isConcrete pp.2.typeId then
        let r := checkIfTraitConstraintsAreSatisfiedForType eng st.1 pp.2.typeId
          pp.1.traitConstraints implSpan
        (r.1, st.2 && r.2.2)
      else st)
    (m, true)

/-- The conflict-scan body of `TraitMap::insert` for one existing record (source lines
    299–485): compute types-are-subset and traits-are-subset, skip the record if the
    constraint lineup fails, otherwise emit `ConflictingImplsForTraitAndType` or the
    `DuplicateDeclDefinedForType` family per the decision rule. -/
def insertEntryStep (eng : Engines) (traitName : CallPathIdent)
    (traitTypeArgs : List TypeId) (typeIdTypeParameters : List TypeParameter)
    (typeId : TypeId) (traitItems : TraitItems) (implSpan : Span) (isImplSelf : Bool)
    (isExtendingExistingImpl : Bool) (st : Module × List Diagnostic)
    (entry : TraitEntry) : Module × List Diagnostic :=
  let mapTraitNameSuffix := entry.key.name.suffix.name
  let mapTraitTypeArgs := entry.key.name.suffix.args
  let typesAreSubset :=
    eng.nonGenericConstraintSubset typeId entry.key.typeId &&
      isUnifiedTypeSubset (getUnaliasedInfo eng typeId) (getUnaliasedInfo eng entry.key.typeId)
  let traitsAreSubset :=
    if mapTraitNameSuffix != traitName.suffix ||
        mapTraitTypeArgs.length != traitTypeArgs.length then false
    else
      (mapTraitTypeArgs.zip traitTypeArgs).all fun aa =>
        eng.nonGenericConstraintSubset aa.2 aa.1
  let lineUp := constraintsLineUp eng st.1 entry.key.typeIdTypeParameters
    typeIdTypeParameters implSpan
  if !lineUp.2 then (lineUp.1, st.2)
  else if !isExtendingExistingImpl && typesAreSubset && traitsAreSubset && !isImplSelf then
    (lineUp.1, st.2 ++ [Diagnostic.conflictingImplsForTraitAndType
      (toStringWithArgs eng traitName traitTypeArgs) (eng.showTypeId typeId)
      entry.value.implSpan implSpan])
  else if typesAreSubset && (traitsAreSubset || isImplSelf) then
    (lineUp.1, st.2 ++ dupDeclDiags eng traitItems entry.value.traitItems typeId)
  else (lineUp.1, st.2)

/-- `TraitMap::insert` (source lines 233–508).  Returns the resulting module, the
    diagnostics emitted inside the handler scope (in emission order), and the scope's
    success flag (`Ok` iff no diagnostic was emitted). -/
def TraitMap.insert (eng : Engines) (m : Module) (traitName : CallPathIdent)
    (traitTypeArgs : List TypeId) (implTypeParameters : List TypeParameter)
    (typeId0 : TypeId) (items : List Item) (implSpan : Span)
    (traitDeclSpan : Option Span) (isImplSelf : Bool)
    (isExtendingExistingImpl : Bool) : Module × List Diagnostic × Bool :=
  let typeId := eng.getUnaliasedId typeId0
  let typeIdTypeParameters := insertTypeParams eng implTypeParameters typeId
  let built := buildTraitItems items
  let ensured := TraitMap.getImplsMut eng m.current typeId
  let m1 : Module := { m with current := ensured.1 }
  let scan := ensured.2.foldl
    (insertEntryStep eng traitName traitTypeArgs typeIdTypeParameters typeId built.1
      implSpan isImplSelf isExtendingExistingImpl)
    (m1, [])
  let newTraitName : TraitName := ⟨traitName.prefixes, ⟨traitName.suffix, traitTypeArgs⟩⟩
  let cur2 := TraitMap.insertInner eng scan.1.current newTraitName implSpan traitDeclSpan
    typeId typeIdTypeParameters built.1
  let m2 : Module := { scan.1 with current := cur2 }
  let diags := built.2 ++ scan.2
  (m2, diags, diags.isEmpty)

/-- `TraitMap::filter_dummy_methods` (source lines 745–786): drop dummy trait methods
    unless the stored type is an `UnknownGeneric` whose placeholder may leak (the
    `insertable` rule). -/
def filterDummyMethods (eng : Engines) (mapTraitItems : TraitItems)
    (typeId mapTypeId : TypeId) : TraitItems :=
  let insertable :=
    match eng.getInfo mapTypeId with
    | .unknownGeneric _ isFromTypeParameter =>
      !isFromTypeParameter ||
        (match eng.getInfo typeId with
          | .unknownGeneric _ _ => true
          | _ => false)
    | _ => true
  mapTraitItems.filter fun p =>
    match p.2.kind with
    | .fnItem => !(p.2.isTraitMethodDummy && !insertable)
    | _ => true

/-- `TraitMap::get_items_and_trait_key_for_type` (source lines 861–901): walk the scope
    chain, scan each scope's (placeholder-extended) bucket, keep entries accepted by the
    constraint-subset oracle, and return their dummy-filtered items with the owning key. -/
def getItemsAndTraitKeyForType (eng : Engines) (m : Module) (typeId0 : TypeId) :
    List (Item × TraitKey) :=
  let typeId := eng.getUnaliasedId typeId0
  if eng.getInfo typeId = TypeInfo.errorRecovery then []
  else
    m.scopes.foldl
      (fun items scope =>
        items ++ (TraitMap.getImpls eng scope typeId true).foldl
          (fun acc entry =>
            if eng.constraintSubset typeId entry.key.typeId then
              acc ++ (filterDummyMethods eng entry.value.traitItems typeId
                entry.key.typeId).map (fun p => (p.2, entry.key))
            else acc)
          [])
      []

/-- `TraitMap::get_items_for_type` (source lines 850–859). -/
def getItemsForType (eng : Engines) (m : Module) (typeId : TypeId) : List Item :=
  (getItemsAndTraitKeyForType eng m typeId).map Prod.fst

/-- `TraitMap::get_impl_spans_for_type` (source lines 912–941): same scan shape but with
    the placeholder extension disabled, projecting impl spans. -/
def getImplSpansForType (eng : Engines) (m : Module) (typeId0 : TypeId) : List Span :=
  let typeId := eng.getUnaliasedId typeId0
  if eng.getInfo typeId = TypeInfo.errorRecovery then []
  else
    m.scopes.foldl
      (fun spans scope =>
        spans ++ (TraitMap.getImpls eng scope typeId false).foldl
          (fun acc entry =>
            if eng.constraintSubset typeId entry.key.typeId then
              acc ++ [entry.value.implSpan]
            else acc)
          [])
      []

/-- `TraitMap::get_items_for_type_and_trait_name_and_trait_type_arguments` (source lines
    1003–1070): placeholder extension disabled; filter by trait path, oracle acceptance
    and pairwise-accepted argument lists; returned items are instantiated through the
    declaration store (`substItem`). -/
def getItemsForTypeAndTraitNameAndTraitTypeArguments (eng : Engines) (m : Module)
    (typeId0 : TypeId) (traitName : CallPathIdent) (traitTypeArgs : List TypeId) :
    List Item :=
  let typeId := eng.getUnaliasedId typeId0
  if eng.getInfo typeId = TypeInfo.errorRecovery then []
  else
    m.scopes.foldl
      (fun items scope =>
        items ++ (TraitMap.getImpls eng scope typeId false).foldl
          (fun acc e =>
            let mapTraitName : CallPathIdent := ⟨e.key.name.prefixes, e.key.name.suffix.name⟩
            if mapTraitName == traitName &&
                eng.constraintSubset typeId e.key.typeId &&
                traitTypeArgs.length == e.key.name.suffix.args.length &&
                ((traitTypeArgs.zip e.key.name.suffix.args).all fun tt =>
                  eng.constraintSubset tt.1 tt.2) then
              acc ++ (filterDummyMethods eng e.value.traitItems typeId e.key.typeId).map
                (fun p => eng.substItem p.2 e.key.typeId typeId)
            else acc)
          [])
      []

/-- Candidate collection of `get_trait_item_for_type` (source lines 1145–1233): candidates
    are keyed by the rendered owning-trait path; an item qualifies when its name equals the
    symbol and, if an `as_trait` hint is given, the rendered paths agree. -/
def collectCandidates (eng : Engines) (pairs : List (Item × TraitKey)) (symbol : Ident)
    (asTrait : Option CallPathIdent) : TraitItems :=
  pairs.foldl
    (fun cands p =>
      let traitCallPathString := traitNameToString eng p.2.name
      if p.1.name == symbol &&
          (asTrait.isNone ||
            (asTrait.map callPathToString).getD "" == traitCallPathString) then
        insertS cands traitCallPathString p.1
      else cands)
    []

/-- Last segment of a rendered path (`split("::").last()`, source lines 1244–1249). -/
def lastPathSegment (s : String) : String := (s.splitOn "::").getLastD s

/-- `TraitMap::get_trait_item_for_type` (source lines 1135–1267): exactly one candidate
    succeeds; zero raises `SymbolNotFound`; more than one raises
    `MultipleApplicableItemsInScope` listing each candidate's trait name and span. -/
def getTraitItemForType (eng : Engines) (m : Module) (symbol : Ident) (typeId0 : TypeId)
    (asTrait : Option CallPathIdent) : List Diagnostic × Option Item :=
  let typeId := eng.getUnaliasedId typeId0
  let pairs := getItemsAndTraitKeyForType eng m typeId
  let candidates := collectCandidates eng pairs symbol asTrait
  if candidates.length > 1 then
    ([Diagnostic.multipleApplicableItemsInScope symbol "item"
        (candidates.map fun p => (lastPathSegment p.1, eng.showTypeId typeId))
        (candidates.map fun p => p.2.span)], none)
  else if candidates.length < 1 then ([Diagnostic.symbolNotFound symbol], none)
  else ([], candidates.head?.map Prod.snd)

/-- Predicate selecting `ConflictingImplsForTraitAndType` diagnostics. -/
def isConflictDiag : Diagnostic → Bool
  | .conflictingImplsForTraitAndType _ _ _ _ => true
  | _ => false

/-- The diagnostics the conflict scan emits for one existing record, as a function of the
    module state reaching that record (same branches as `insertEntryStep`). -/
def entryConflictDiags (eng : Engines) (traitName : CallPathIdent)
    (traitTypeArgs : List TypeId) (tps : List TypeParameter) (typeId : TypeId)
    (traitItems : TraitItems) (implSpan : Span) (isImplSelf isExtending : Bool)
    (m : Module) (entry : TraitEntry) : List Diagnostic :=
  let typesAreSubset :=
    eng.nonGenericConstraintSubset typeId entry.key.typeId &&
      isUnifiedTypeSubset (getUnaliasedInfo eng typeId) (getUnaliasedInfo eng entry.key.typeId)
  let traitsAreSubset :=
    if entry.key.name.suffix.name != traitName.suffix ||
        entry.key.name.suffix.args.length != traitTypeArgs.length then false
    else
      (entry.key.name.suffix.args.zip traitTypeArgs).all fun aa =>
        eng.nonGenericConstraintSubset aa.2 aa.1
  let lineUp := constraintsLineUp eng m entry.key.typeIdTypeParameters tps implSpan
  if !lineUp.2 then []
  else if !isExtending && typesAreSubset && traitsAreSubset && !isImplSelf then
    [Diagnostic.conflictingImplsForTraitAndType (toStringWithArgs eng traitName traitTypeArgs)
      (eng.showTypeId typeId) entry.value.implSpan implSpan]
  else if typesAreSubset && (traitsAreSubset || isImplSelf) then
    dupDeclDiags eng traitItems entry.value.traitItems typeId
  else []

/-- Spec §4.1 decision rule for one existing record: the record is a conflict exactly when
    it is not skipped by the constraint-lineup check and the call is not
    importing-as-extension, types-are-subset and traits-are-subset hold, and it is not a
    self-impl. -/
def entryConflictCand (eng : Engines) (traitName : CallPathIdent)
    (traitTypeArgs : List TypeId) (tps : List TypeParameter) (typeId : TypeId)
    (implSpan : Span) (isImplSelf isExtending : Bool) (m : Module)
    (entry : TraitEntry) : List TraitEntry :=
  let typesAreSubset :=
    eng.nonGenericConstraintSubset typeId entry.key.typeId &&
      isUnifiedTypeSubset (getUnaliasedInfo eng typeId) (getUnaliasedInfo eng entry.key.typeId)
  let traitsAreSubset :=
    if entry.key.name.suffix.name != traitName.suffix ||
        entry.key.name.suffix.args.length != traitTypeArgs.length then false
    else
      (entry.key.name.suffix.args.zip traitTypeArgs).all fun aa =>
        eng.nonGenericConstraintSubset aa.2 aa.1
  let lineUp := constraintsLineUp eng m entry.key.typeIdTypeParameters tps implSpan
  if lineUp.2 && (!isExtending && typesAreSubset && traitsAreSubset && !isImplSelf) then
    [entry]
  else []

/-- The records of the scanned bucket the spec's decision rule flags as conflicts,
    threading the module through the per-record constraint-lineup checks exactly as the
    scan does. -/
def conflictCandidates (eng : Engines) (traitName : CallPathIdent)
    (traitTypeArgs : List TypeId) (tps : List TypeParameter) (typeId : TypeId)
    (implSpan : Span) (isImplSelf isExtending : Bool) (m : Module)
    (bucket : List TraitEntry) : Module × List TraitEntry :=
  bucket.foldl
    (fun st e =>
      ((constraintsLineUp eng st.1 e.key.typeIdTypeParameters tps implSpan).1,
        st.2 ++ entryConflictCand eng traitName traitTypeArgs tps typeId implSpan
          isImplSelf isExtending st.1 e))
    (m, [])

/-- Entry lookup in one bucket by `TraitKey`-comparison equality (the notion of "same
    record" used by the binary-search merge). -/
def bfind (xs : List TraitEntry) (k : TraitKey) : Option TraitEntry :=
  xs.find? fun e => cmpTraitKey e.key k == Ordering.eq

/-- The bucket stored for a root filter (empty when absent). -/
def bucketOf (tm : TraitMap) (rf : TypeRootFilter) : List TraitEntry :=
  (implsLookup tm.traitImpls rf).getD []

/-- Observation: the record stored under a root filter at a given key. -/
def TraitMap.entryAt (tm : TraitMap) (rf : TypeRootFilter) (k : TraitKey) :
    Option TraitEntry :=
  bfind (bucketOf tm rf) k

/-- Observation: the stored record's key (the merge keeps the original key). -/
def TraitMap.keyAt (tm : TraitMap) (rf : TypeRootFilter) (k : TraitKey) : Option TraitKey :=
  (TraitMap.entryAt tm rf k).map TraitEntry.key

/-- Observation: one named item of the record stored at a key. -/
def TraitMap.itemAt (tm : TraitMap) (rf : TypeRootFilter) (k : TraitKey) (name : String) :
    Option Item :=
  (TraitMap.entryAt tm rf k).bind fun e => lookupS e.value.traitItems name

/-- The record produced by merging a stored record with an incoming one of equal key. -/
def mergedEntry (se oe : TraitEntry) : TraitEntry :=
  { se with value :=
      { se.value with traitItems := extendS se.value.traitItems oe.value.traitItems } }

/-- An item map has no duplicate names (invariant of maps built through `insertS`). -/
def ItemsWF (ti : TraitItems) : Prop := (ti.map Prod.fst).Nodup

/-- A bucket is strictly sorted by `TraitKey` ordering (spec §3 invariant 1). -/
def BucketSorted (xs : List TraitEntry) : Prop :=
  xs.Pairwise fun a b => cmpTraitKey a.key b.key = Ordering.lt

/-- No two entries of a list share a `TraitKey` (up to comparison). -/
def NodupKeysB (xs : List TraitEntry) : Prop :=
  xs.Pairwise fun a b => cmpTraitKey a.key b.key ≠ Ordering.eq

/-- Well-formedness of a `TraitMap`: distinct bucket keys, each bucket strictly sorted,
    and every stored item map duplicate-free.  Maps built by the engine's own operations
    preserve this. -/
def TraitMapWF (tm : TraitMap) : Prop :=
  (tm.traitImpls.map Prod.fst).Nodup ∧
    ∀ p ∈ tm.traitImpls, BucketSorted p.2 ∧ ∀ e ∈ p.2, ItemsWF e.value.traitItems

instance (ti : TraitItems) : Decidable (ItemsWF ti) := by
  unfold ItemsWF
  infer_instance

instance (xs : List TraitEntry) : Decidable (BucketSorted xs) := by
  unfold BucketSorted
  infer_instance

instance (xs : List TraitEntry) : Decidable (NodupKeysB xs) := by
  unfold NodupKeysB
  infer_instance

instance (tm : TraitMap) : Decidable (TraitMapWF tm) := by
  unfold TraitMapWF
  infer_instance

/-! ### A small concrete engine instance and fixtures, used to evaluate the theorems on
    closed inputs.  The oracle fields are modelled from the spec (§3 invariant 2, §4.1,
    §8): the subset checks are reflexive, `Generic<u64> (5) ⊆ Generic<T> (4)` holds for
    the constraint-subset check but not for the non-generic one, and reference types of
    different mutability are never subsets of one another. -/

/-- Type table: 0 = u64, 1 = bool, 2 = &u64, 3 = &mut u64, 4 = Generic<T>,
    5 = Generic<u64>, 10 = T (unresolved generic), 99 = interned custom trait type. -/
def testGetInfo : TypeId → TypeInfo
  | 0 => .unsignedInteger .sixtyFour
  | 1 => .boolean
  | 2 => .ref false (.unsignedInteger .sixtyFour)
  | 3 => .ref true (.unsignedInteger .sixtyFour)
  | 4 => .structInfo 0 [⟨10, []⟩]
  | 5 => .structInfo 0 [⟨0, []⟩]
  | 10 => .unknownGeneric "T" false
  | 99 => .custom "Tr" none
  | _ => .boolean

/-- Concrete engines for witnesses. -/
def testEngines : Engines where
  getInfo := testGetInfo
  getUnaliasedId := fun t => t
  decayNumeric := fun _ => true
  newCustom := fun _ _ => 99
  isConcrete := fun t => t != 10
  nonGenericConstraintSubset := fun a b => a == b
  constraintSubset := fun a b => a == b || (a == 5 && b == 4)
  hashQuery := fun t _ => t
  showTypeId := fun _ => "ty"
  substItem := fun i _ _ => i

/-- Fixture items (functions named f and g with distinct declaration handles). -/
def itemF1 : Item := ⟨.fnItem, "f", false, 11, 1⟩

def itemG2 : Item := ⟨.fnItem, "g", false, 12, 2⟩

def itemF3 : Item := ⟨.fnItem, "f", false, 13, 3⟩

/-- Fixture trait path `Tr` with no prefixes. -/
def trPath : CallPathIdent := ⟨[], "Tr"⟩

/-- An empty single-scope module. -/
def emptyModule : Module := ⟨⟨[], [], []⟩, []⟩

/-- Fixture keys: trait `Tr` implemented for u64 (handle 0) and bool (handle 1). -/
def keyU64 : TraitKey := ⟨⟨[], ⟨"Tr", []⟩⟩, 0, [], none⟩

def keyBool : TraitKey := ⟨⟨[], ⟨"Tr", []⟩⟩, 1, [], none⟩

/-- Fixture maps for the merge claims. -/
def mapA : TraitMap := ⟨[(.u64, [⟨keyU64, ⟨[("f", itemF1)], 100⟩⟩])], [], []⟩

def mapB : TraitMap := ⟨[(.u64, [⟨keyU64, ⟨[("g", itemG2)], 200⟩⟩])], [], []⟩

def mapC : TraitMap := ⟨[(.boolean, [⟨keyBool, ⟨[("f", itemF3)], 300⟩⟩])], [], []⟩

/-- Coherence scenario (spec §8): a first non-generic impl of `Tr` for `u64`. -/
def c3m1 : Module × List Diagnostic × Bool :=
  TraitMap.insert testEngines emptyModule trPath [] [] 0 [itemF1] 100 none false false

/-- A second non-generic impl of the same trait for the identical type. -/
def c3m2 : Module × List Diagnostic × Bool :=
  TraitMap.insert testEngines c3m1.1 trPath [] [] 0 [itemG2] 200 none false false

/-- Specialization scenario (spec §8): an impl of `Tr` for `Generic<T>` (handle 4). -/
def c2m1 : Module × List Diagnostic × Bool :=
  TraitMap.insert testEngines emptyModule trPath [] [] 4 [itemF1] 100 none false false

/-- Then an impl of the same trait for `Generic<u64>` (handle 5). -/
def c2m2 : Module × List Diagnostic × Bool :=
  TraitMap.insert testEngines c2m1.1 trPath [] [] 5 [itemG2] 200 none false false

/-- Reference-coexistence scenario (spec §8): an impl of `Tr` for `&u64` (handle 2). -/
def c4m1 : Module × List Diagnostic × Bool :=
  TraitMap.insert testEngines emptyModule trPath [] [] 2 [itemF1] 100 none false false

/-- Then an impl of the same trait for `&mut u64` (handle 3). -/
def c4m2 : Module × List Diagnostic × Bool :=
  TraitMap.insert testEngines c4m1.1 trPath [] [] 3 [itemG2] 200 none false false

/-- Fixture key for an impl recorded against the unresolved generic `T` (handle 10). -/
def keyGenT : TraitKey := ⟨⟨[], ⟨"Tr", []⟩⟩, 10, [], none⟩

/-- A map holding a `Placeholder`-bucket record next to an ordinary `u64` record. -/
def mapAP : TraitMap :=
  ⟨[(.placeholder, [⟨keyGenT, ⟨[("g", itemG2)], 400⟩⟩]),
    (.u64, [⟨keyU64, ⟨[("f", itemF1)], 100⟩⟩])], [], []⟩

/-- Observation: the mutability of the reference layer at a given nesting depth, defined
    when the type is a chain of references at least that deep. -/
def refDepthMut : TypeInfo → Nat → Option Bool
  | .ref mu _, 0 => some mu
  | .ref _ ty, n + 1 => refDepthMut ty n
  | _, _ => none

/-! ### Lemmas about the association-map primitives -/

theorem lookupS_insertS (m : TraitItems) (k : String) (v : Item) (n : String) :
    lookupS (insertS m k v) n = if n = k then some v else lookupS m n := by
  induction m with
  | nil =>
    by_cases h : n = k
    · subst h; simp [insertS, lookupS]
    · have hb : (k == n) = false := by
        rw [beq_eq_false_iff_ne]
        exact fun hc => h hc.symm
      simp [insertS, lookupS, List.find?, hb, h]
  | cons p rest ih =>
    by_cases hp : p.1 = k
    · by_cases h : n = k
      · subst h; simp [insertS, hp, lookupS, List.find?_cons, beq_iff_eq]
      · have hb : (k == n) = false := by
          rw [beq_eq_false_iff_ne]
          exact fun hc => h hc.symm
        have hb2 : (p.1 == n) = false := by rw [hp]; exact hb
        simp [insertS, hp, lookupS, List.find?_cons, hb, hb2, h]
    · by_cases hn : p.1 = n
      · have hnk : ¬n = k := fun hc => hp (hn.trans hc)
        simp [insertS, hp, lookupS, List.find?_cons, beq_iff_eq, hn, hnk]
      · have hb : (p.1 == n) = false := by
          rw [beq_eq_false_iff_ne]
          exact hn
        simp only [insertS, if_neg hp, lookupS, List.find?_cons, hb]
        simpa [lookupS] using ih

theorem lookupS_eq_none (m : TraitItems) (n : String) (h : n ∉ m.map Prod.fst) :
    lookupS m n = none := by
  have hf : List.find? (fun p => p.1 == n) m = none := by
    rw [List.find?_eq_none]
    intro p hp
    simp only [beq_iff_eq]
    intro hc
    exact h (by simpa [hc] using List.mem_map_of_mem Prod.fst hp)
  simp [lookupS, hf]

theorem keys_insertS (m : TraitItems) (k : String) (v : Item) :
    (insertS m k v).map Prod.fst =
      if k ∈ m.map Prod.fst then m.map Prod.fst else m.map Prod.fst ++ [k] := by
  induction m with
  | nil => simp [insertS]
  | cons p rest ih =>
    by_cases hp : p.1 = k
    · simp [insertS, hp]
    · by_cases hk : k ∈ rest.map Prod.fst
      · simp [insertS, hp, hk, ih, Ne.symm hp]
      · simp [insertS, hp, hk, ih, Ne.symm hp]

theorem itemsWF_insertS {m : TraitItems} (h : ItemsWF m) (k : String) (v : Item) :
    ItemsWF (insertS m k v) := by
  unfold ItemsWF at h ⊢
  rw [keys_insertS]
  by_cases hk : k ∈ m.map Prod.fst
  · simpa [hk] using h
  · simp [hk, List.nodup_append, h]

theorem itemsWF_extendS {a : TraitItems} (ha : ItemsWF a) (b : TraitItems) :
    ItemsWF (extendS a b) := by
  induction b generalizing a with
  | nil => exact ha
  | cons p rest ih => exact ih (itemsWF_insertS ha p.1 p.2)

theorem lookupS_extendS (a b : TraitItems) (n : String) (hb : ItemsWF b) :
    lookupS (extendS a b) n = (lookupS b n).or (lookupS a n) := by
  induction b generalizing a with
  | nil => simp [extendS, lookupS, List.find?]
  | cons p rest ih =>
    have hb' : (p.1 :: rest.map Prod.fst).Nodup := by simpa [ItemsWF] using hb
    have hbrest : ItemsWF rest := by
      unfold ItemsWF
      exact (List.nodup_cons.mp hb').2
    have hstep : extendS a (p :: rest) = extendS (insertS a p.1 p.2) rest := rfl
    rw [hstep, ih _ hbrest]
    by_cases h : n = p.1
    · have hnot : p.1 ∉ rest.map Prod.fst := (List.nodup_cons.mp hb').1
      rw [h, lookupS_eq_none rest p.1 hnot, lookupS_insertS, if_pos rfl]
      simp [lookupS, List.find?_cons, Option.or]
    · rw [lookupS_insertS, if_neg h]
      have hbeq : (p.1 == n) = false := by
        rw [beq_eq_false_iff_ne]
        exact fun hc => h hc.symm
      simp only [lookupS, List.find?_cons, hbeq]

theorem implsLookup_implsInsert (ti : TraitImpls) (k : TypeRootFilter)
    (v : List TraitEntry) (j : TypeRootFilter) :
    implsLookup (implsInsert ti k v) j = if j = k then some v else implsLookup ti j := by
  induction ti with
  | nil =>
    by_cases h : j = k
    · subst h; simp [implsInsert, implsLookup]
    · have hb : (k == j) = false := by
        rw [beq_eq_false_iff_ne]
        exact fun hc => h hc.symm
      simp [implsInsert, implsLookup, List.find?, hb, h]
  | cons p rest ih =>
    by_cases hp : p.1 = k
    · by_cases h : j = k
      · subst h; simp [implsInsert, hp, implsLookup, List.find?_cons, beq_iff_eq]
      · have hb : (k == j) = false := by
          rw [beq_eq_false_iff_ne]
          exact fun hc => h hc.symm
        have hb2 : (p.1 == j) = false := by rw [hp]; exact hb
        simp [implsInsert, hp, implsLookup, List.find?_cons, hb, hb2, h]
    · by_cases hj : p.1 = j
      · have hjk : ¬j = k := fun hc => hp (hj.trans hc)
        simp [implsInsert, hp, implsLookup, List.find?_cons, beq_iff_eq, hj, hjk]
      · have hb : (p.1 == j) = false := by
          rw [beq_eq_false_iff_ne]
          exact hj
        simp only [implsInsert, if_neg hp, implsLookup, List.find?_cons, hb]
        simpa [implsLookup] using ih

theorem implsLookup_eq_none (ti : TraitImpls) (j : TypeRootFilter)
    (h : j ∉ ti.map Prod.fst) : implsLookup ti j = none := by
  have hf : List.find? (fun p => p.1 == j) ti = none := by
    rw [List.find?_eq_none]
    intro p hp
    simp only [beq_iff_eq]
    intro hc
    exact h (by simpa [hc] using List.mem_map_of_mem Prod.fst hp)
  simp [implsLookup, hf]

theorem keys_implsInsert (ti : TraitImpls) (k : TypeRootFilter) (v : List TraitEntry) :
    (implsInsert ti k v).map Prod.fst =
      if k ∈ ti.map Prod.fst then ti.map Prod.fst else ti.map Prod.fst ++ [k] := by
  induction ti with
  | nil => simp [implsInsert]
  | cons p rest ih =>
    by_cases hp : p.1 = k
    · simp [implsInsert, hp]
    · by_cases hk : k ∈ rest.map Prod.fst
      · simp [implsInsert, hp, hk, ih, Ne.symm hp]
      · simp [implsInsert, hp, hk, ih, Ne.symm hp]

/-! ### A first-hit characterization of `List.find?` -/

theorem find?_eq_some_of_first {α : Type} (p : α → Bool) (xs : List α) (pos : Nat)
    (h : pos < xs.length) (hpos : p (xs.get ⟨pos, h⟩) = true)
    (hbefore : ∀ i (hi : i < xs.length), i < pos → p (xs.get ⟨i, hi⟩) = false) :
    xs.find? p = some (xs.get ⟨pos, h⟩) := by
  induction xs generalizing pos with
  | nil => simp at h
  | cons x rest ih =>
    cases pos with
    | zero =>
      have hx : p x = true := by simpa using hpos
      simp [List.find?_cons, hx]
    | succ pos =>
      have hx : p x = false := hbefore 0 (by simp) (Nat.succ_pos pos)
      have h2 : pos < rest.length := by simpa using Nat.lt_of_succ_lt_succ h
      have hrec := ih pos h2 (by simpa using hpos)
        (fun i hi hlt => by
          have := hbefore (i + 1) (by simpa using Nat.succ_lt_succ hi)
            (Nat.succ_lt_succ hlt)
          simpa using this)
      simpa [List.find?_cons, hx] using hrec

/-! ### Correctness of the binary search -/

theorem bsGo_spec {α : Type} (f : α → Ordering) (xs : List α)
    (hmono : ∀ i j : Fin xs.length, i.val ≤ j.val →
      (f (xs.get i) = .gt → f (xs.get j) = .gt) ∧
      (f (xs.get j) = .lt → f (xs.get i) = .lt)) :
    ∀ fuel left right, right - left < fuel → left ≤ right → right ≤ xs.length →
      (∀ i : Fin xs.length, i.val < left → f (xs.get i) = .lt) →
      (∀ i : Fin xs.length, right ≤ i.val → f (xs.get i) = .gt) →
      (match bsGo f xs fuel left right with
        | .ok pos => ∃ hp : pos < xs.length, f (xs.get ⟨pos, hp⟩) = .eq
        | .error pos =>
            pos ≤ xs.length ∧
              (∀ i : Fin xs.length, i.val < pos → f (xs.get i) = .lt) ∧
              (∀ i : Fin xs.length, pos ≤ i.val → f (xs.get i) = .gt)) := by
  intro fuel
  induction fuel with
  | zero => intro left right hf; omega
  | succ fuel ih =>
    intro left right hf hlr hrlen hlo hhi
    by_cases hcond : left < right
    · have hd : (right - left) / 2 < right - left := Nat.div_lt_self (by omega) (by omega)
      have hmidlt : left + (right - left) / 2 < xs.length := by omega
      have hget : xs.get? (left + (right - left) / 2) = some (xs.get ⟨_, hmidlt⟩) :=
        List.get?_eq_get hmidlt
      cases hfx : f (xs.get ⟨left + (right - left) / 2, hmidlt⟩) with
      | lt =>
        have hres : bsGo f xs (fuel + 1) left right
            = bsGo f xs fuel (left + (right - left) / 2 + 1) right := by
          simp only [bsGo, if_pos hcond, hget, hfx]
        rw [hres]
        refine ih _ _ (by omega) (by omega) hrlen ?_ hhi
        intro i hi
        refine (hmono i ⟨left + (right - left) / 2, hmidlt⟩ ?_).2 hfx
        show i.val ≤ left + (right - left) / 2
        omega
      | gt =>
        have hres : bsGo f xs (fuel + 1) left right
            = bsGo f xs fuel left (left + (right - left) / 2) := by
          simp only [bsGo, if_pos hcond, hget, hfx]
        rw [hres]
        refine ih _ _ (by omega) (by omega) (by omega) hlo ?_
        intro i hi
        refine (hmono ⟨left + (right - left) / 2, hmidlt⟩ i ?_).1 hfx
        show left + (right - left) / 2 ≤ i.val
        exact hi
      | eq =>
        have hres : bsGo f xs (fuel + 1) left right = .ok (left + (right - left) / 2) := by
          simp only [bsGo, if_pos hcond, hget, hfx]
        rw [hres]
        exact ⟨hmidlt, hfx⟩
    · have hres : bsGo f xs (fuel + 1) left right = .error left := by
        simp only [bsGo, if_neg hcond]
      rw [hres]
      exact ⟨by omega, hlo, fun i hi => hhi i (by omega)⟩

theorem binarySearchBy_spec {α : Type} (f : α → Ordering) (xs : List α)
    (hmono : ∀ i j : Fin xs.length, i.val ≤ j.val →
      (f (xs.get i) = .gt → f (xs.get j) = .gt) ∧
      (f (xs.get j) = .lt → f (xs.get i) = .lt)) :
    (match binarySearchBy f xs with
      | .ok pos => ∃ hp : pos < xs.length, f (xs.get ⟨pos, hp⟩) = .eq
      | .error pos =>
          pos ≤ xs.length ∧
            (∀ i : Fin xs.length, i.val < pos → f (xs.get i) = .lt) ∧
            (∀ i : Fin xs.length, pos ≤ i.val → f (xs.get i) = .gt)) :=
  bsGo_spec f xs hmono (xs.length + 1) 0 xs.length (by omega) (by omega) (le_refl _)
    (fun i hi => absurd hi (by omega)) (fun i hi => absurd i.isLt (by omega))

theorem bucketSorted_hmono (xs : List TraitEntry) (hs : BucketSorted xs) (k : TraitKey) :
    ∀ i j : Fin xs.length, i.val ≤ j.val →
      (cmpTraitKey (xs.get i).key k = .gt → cmpTraitKey (xs.get j).key k = .gt) ∧
      (cmpTraitKey (xs.get j).key k = .lt → cmpTraitKey (xs.get i).key k = .lt) := by
  intro i j hij
  rcases Nat.eq_or_lt_of_le hij with heq | hlt
  · have hize : i = j := Fin.ext heq
    subst hize
    exact ⟨id, id⟩
  · have hlt2 : cmpTraitKey (xs.get i).key (xs.get j).key = .lt :=
      (List.pairwise_iff_get.mp hs) i j hlt
    constructor
    · intro hgt
      have h1 : cmpTraitKey k (xs.get i).key = .lt := cmpLaws_cmpTraitKey.ltOfGt hgt
      have h2 : cmpTraitKey k (xs.get j).key = .lt := cmpLaws_cmpTraitKey.ltTrans h1 hlt2
      exact cmpLaws_cmpTraitKey.gtOfLt h2
    · intro hlt3
      exact cmpLaws_cmpTraitKey.ltTrans hlt2 hlt3

/-- Decomposition of one bucket-merge step: either we hit the unique key-equal record at
    `pos` and replace it by the merged record, or no record is key-equal and the incoming
    record is inserted at the sorted position `pos`. -/
theorem bucketStep_cases (sv : List TraitEntry) (oe : TraitEntry) (hs : BucketSorted sv) :
    (∃ pos : Fin sv.length, cmpTraitKey (sv.get pos).key oe.key = .eq ∧
        bucketStep sv oe =
          sv.take pos.val ++ mergedEntry (sv.get pos) oe :: sv.drop (pos.val + 1)) ∨
    (∃ pos : Nat, pos ≤ sv.length ∧
        (∀ i : Fin sv.length, i.val < pos → cmpTraitKey (sv.get i).key oe.key = .lt) ∧
        (∀ i : Fin sv.length, pos ≤ i.val → cmpTraitKey (sv.get i).key oe.key = .gt) ∧
        bucketStep sv oe = sv.take pos ++ oe :: sv.drop pos) := by
  have hspec := binarySearchBy_spec (fun se => cmpTraitKey se.key oe.key) sv
    (bucketSorted_hmono sv hs oe.key)
  unfold bucketStep
  cases hbs : binarySearchBy (fun se => cmpTraitKey se.key oe.key) sv with
  | ok pos =>
    rw [hbs] at hspec
    obtain ⟨hp, heq⟩ := hspec
    left
    refine ⟨⟨pos, hp⟩, heq, ?_⟩
    have hrw : sv.get? pos = some (sv.get ⟨pos, hp⟩) := List.get?_eq_get hp
    simp only [hrw]
    rfl
  | error pos =>
    rw [hbs] at hspec
    obtain ⟨hple, hlt, hgt⟩ := hspec
    right
    exact ⟨pos, hple, hlt, hgt, rfl⟩

theorem list_decomp {α : Type} (xs : List α) (pos : Fin xs.length) :
    xs = xs.take pos.val ++ xs.get pos :: xs.drop (pos.val + 1) := by
  conv_lhs => rw [← List.take_append_drop pos.val xs]
  rw [List.drop_eq_getElem_cons pos.isLt]
  rfl

theorem mem_take_index {α : Type} {xs : List α} {p : Nat} {x : α} (h : x ∈ xs.take p) :
    ∃ i : Fin xs.length, i.val < p ∧ xs.get i = x := by
  obtain ⟨i, hget⟩ := List.mem_iff_get.mp h
  have hlen : i.val < min p xs.length := by
    have := i.isLt
    simpa [List.length_take] using this
  have hix : i.val < xs.length := lt_of_lt_of_le hlen (min_le_right _ _)
  refine ⟨⟨i.val, hix⟩, lt_of_lt_of_le hlen (min_le_left _ _), ?_⟩
  rw [← hget]
  show xs[i.val] = (xs.take p)[i.val]
  rw [List.getElem_take]

theorem mem_drop_index {α : Type} {xs : List α} {p : Nat} {x : α} (h : x ∈ xs.drop p) :
    ∃ i : Fin xs.length, p ≤ i.val ∧ xs.get i = x := by
  obtain ⟨j, hget⟩ := List.mem_iff_get.mp h
  have hlen : j.val < xs.length - p := by
    have := j.isLt
    simpa [List.length_drop] using this
  have hix : p + j.val < xs.length := by omega
  refine ⟨⟨p + j.val, hix⟩, ?_, ?_⟩
  · show p ≤ p + j.val
    omega
  rw [← hget]
  show xs[p + j.val] = (xs.drop p)[j.val]
  rw [List.getElem_drop]

theorem nodupKeysB_of_sorted {xs : List TraitEntry} (hs : BucketSorted xs) :
    NodupKeysB xs :=
  hs.imp fun h => by rw [h]; simp

theorem bucketStep_sorted {sv : List TraitEntry} (hs : BucketSorted sv) (oe : TraitEntry) :
    BucketSorted (bucketStep sv oe) := by
  rcases bucketStep_cases sv oe hs with ⟨pos, heq, hres⟩ | ⟨pos, hple, hlt, hgt, hres⟩
  · rw [hres]
    have hk : (sv.take pos.val ++ mergedEntry (sv.get pos) oe :: sv.drop (pos.val + 1)).map
        TraitEntry.key = sv.map TraitEntry.key := by
      conv_rhs => rw [list_decomp sv pos]
      simp only [List.map_append, List.map_cons]
      rfl
    have hs2 : (sv.map TraitEntry.key).Pairwise fun a b => cmpTraitKey a b = .lt := by
      rw [List.pairwise_map]
      exact hs
    rw [← hk] at hs2
    rw [List.pairwise_map] at hs2
    exact hs2
  · rw [hres]
    unfold BucketSorted at hs ⊢
    rw [List.pairwise_append]
    refine ⟨List.Pairwise.sublist (List.take_sublist _ _) hs, ?_, ?_⟩
    · rw [List.pairwise_cons]
      refine ⟨?_, List.Pairwise.sublist (List.drop_sublist _ _) hs⟩
      intro y hy
      obtain ⟨j, hj, hjy⟩ := mem_drop_index hy
      rw [← hjy]
      exact cmpLaws_cmpTraitKey.ltOfGt (hgt j hj)
    · intro a ha b hb
      obtain ⟨i, hip, hia⟩ := mem_take_index ha
      rcases List.mem_cons.mp hb with hb | hb
      · rw [← hia, hb]
        exact hlt i hip
      · obtain ⟨j, hjp, hjb⟩ := mem_drop_index hb
        rw [← hia, ← hjb]
        exact (List.pairwise_iff_get.mp hs) i j (by omega)

theorem bucketStep_itemsWF {sv : List TraitEntry} {oe : TraitEntry} (hs : BucketSorted sv)
    (hsv : ∀ e ∈ sv, ItemsWF e.value.traitItems) (hoe : ItemsWF oe.value.traitItems) :
    ∀ e ∈ bucketStep sv oe, ItemsWF e.value.traitItems := by
  rcases bucketStep_cases sv oe hs with ⟨pos, heq, hres⟩ | ⟨pos, hple, hlt, hgt, hres⟩
  · rw [hres]
    intro e he
    rcases List.mem_append.mp he with he | he
    · exact hsv e ((List.take_sublist _ _).subset he)
    · rcases List.mem_cons.mp he with he | he
      · rw [he]
        exact itemsWF_extendS (hsv _ (List.get_mem sv pos.val pos.isLt)) _
      · exact hsv e ((List.drop_sublist _ _).subset he)
  · rw [hres]
    intro e he
    rcases List.mem_append.mp he with he | he
    · exact hsv e ((List.take_sublist _ _).subset he)
    · rcases List.mem_cons.mp he with he | he
      · rw [he]; exact hoe
      · exact hsv e ((List.drop_sublist _ _).subset he)

theorem ordBeq_true_iff {a b : Ordering} : (a == b) = true ↔ a = b := by
  cases a <;> cases b <;> decide

theorem bfind_congr (xs : List TraitEntry) (k1 k2 : TraitKey)
    (h : cmpTraitKey k1 k2 = .eq) : bfind xs k1 = bfind xs k2 := by
  unfold bfind
  congr 1
  funext e
  rw [cmpLaws_cmpTraitKey.eqRight h e.key]

theorem bucketStep_bfind (sv : List TraitEntry) (oe : TraitEntry)
    (hs : BucketSorted sv) (k : TraitKey) :
    bfind (bucketStep sv oe) k =
      if cmpTraitKey oe.key k = .eq then
        some (match bfind sv k with
          | some se => mergedEntry se oe
          | none => oe)
      else bfind sv k := by
  rcases bucketStep_cases sv oe hs with ⟨pos, heq, hres⟩ | ⟨pos, hple, hlt, hgt, hres⟩
  · -- merge at the unique key-equal position
    have htake : ∀ y ∈ sv.take pos.val,
        ¬((fun e => cmpTraitKey e.key oe.key == Ordering.eq) y = true) := by
      intro y hy
      obtain ⟨i, hip, hiy⟩ := mem_take_index hy
      have hlt2 : cmpTraitKey (sv.get i).key (sv.get pos).key = .lt :=
        (List.pairwise_iff_get.mp hs) i pos (by omega)
      have hylt : cmpTraitKey y.key oe.key = .lt := by
        rw [← hiy]
        exact cmpLaws_cmpTraitKey.ltEqTrans hlt2 heq
      show ¬(cmpTraitKey y.key oe.key == Ordering.eq) = true
      rw [hylt]
      decide
    by_cases hk : cmpTraitKey oe.key k = .eq
    · rw [if_pos hk]
      have hsvk : bfind sv k = some (sv.get pos) := by
        rw [bfind_congr sv k oe.key (cmpLaws_cmpTraitKey.eqSymm hk)]
        conv_lhs => rw [list_decomp sv pos]
        unfold bfind
        rw [List.find?_append]
        rw [List.find?_eq_none.mpr htake]
        rw [List.find?_cons_of_pos _ (by
          show (cmpTraitKey (sv.get pos).key oe.key == Ordering.eq) = true
          rw [heq]
          decide)]
        rfl
      rw [hsvk, hres]
      unfold bfind
      rw [List.find?_append]
      have htake2 : ∀ y ∈ sv.take pos.val,
          ¬((fun e => cmpTraitKey e.key k == Ordering.eq) y = true) := by
        intro y hy
        have hyn := htake y hy
        show ¬(cmpTraitKey y.key k == Ordering.eq) = true
        rw [← cmpLaws_cmpTraitKey.eqRight hk y.key]
        exact hyn
      rw [List.find?_eq_none.mpr htake2]
      rw [List.find?_cons_of_pos _ (by
        show (cmpTraitKey (mergedEntry (sv.get pos) oe).key k == Ordering.eq) = true
        have hx : cmpTraitKey (sv.get pos).key k = Ordering.eq := by
          rw [← cmpLaws_cmpTraitKey.eqRight hk (sv.get pos).key]
          exact heq
        show (cmpTraitKey (sv.get pos).key k == Ordering.eq) = true
        rw [hx]
        decide)]
      rfl
    · rw [if_neg hk, hres]
      conv_rhs => rw [list_decomp sv pos]
      unfold bfind
      rw [List.find?_append, List.find?_append]
      have hx : cmpTraitKey (sv.get pos).key k ≠ Ordering.eq := by
        rw [cmpLaws_cmpTraitKey.eqLeft heq k]
        exact hk
      rw [List.find?_cons_of_neg _ (by
        show ¬(cmpTraitKey (mergedEntry (sv.get pos) oe).key k == Ordering.eq) = true
        show ¬(cmpTraitKey (sv.get pos).key k == Ordering.eq) = true
        exact fun hc => hx (ordBeq_true_iff.mp hc))]
      rw [List.find?_cons_of_neg _ (by
        show ¬(cmpTraitKey (sv.get pos).key k == Ordering.eq) = true
        exact fun hc => hx (ordBeq_true_iff.mp hc))]
  · -- insertion at the sorted position
    by_cases hk : cmpTraitKey oe.key k = .eq
    · rw [if_pos hk]
      have hsvk : bfind sv k = none := by
        unfold bfind
        rw [List.find?_eq_none]
        intro e he
        obtain ⟨i, hie⟩ := List.mem_iff_get.mp he
        show ¬(cmpTraitKey e.key k == Ordering.eq) = true
        intro hc0
        have hc := ordBeq_true_iff.mp hc0
        rw [← hie] at hc
        rw [← cmpLaws_cmpTraitKey.eqRight hk (sv.get i).key] at hc
        rcases Nat.lt_or_ge i.val pos with hip | hip
        · rw [hlt i hip] at hc
          exact Ordering.noConfusion hc
        · rw [hgt i hip] at hc
          exact Ordering.noConfusion hc
      rw [hsvk, hres]
      unfold bfind
      rw [List.find?_append]
      have htake : ∀ y ∈ sv.take pos,
          ¬((fun e => cmpTraitKey e.key k == Ordering.eq) y = true) := by
        intro y hy
        obtain ⟨i, hip, hiy⟩ := mem_take_index hy
        show ¬(cmpTraitKey y.key k == Ordering.eq) = true
        rw [← hiy, ← cmpLaws_cmpTraitKey.eqRight hk (sv.get i).key, hlt i hip]
        decide
      rw [List.find?_eq_none.mpr htake]
      rw [List.find?_cons_of_pos _ (by
        show (cmpTraitKey oe.key k == Ordering.eq) = true
        rw [hk]
        decide)]
      rfl
    · rw [if_neg hk, hres]
      unfold bfind
      rw [List.find?_append]
      rw [List.find?_cons_of_neg _ (by
        show ¬(cmpTraitKey oe.key k == Ordering.eq) = true
        exact fun hc => hk (ordBeq_true_iff.mp hc))]
      rw [← List.find?_append, List.take_append_drop]

theorem extendBucket_sorted {sv : List TraitEntry} (hs : BucketSorted sv)
    (oes : List TraitEntry) : BucketSorted (extendBucket sv oes) := by
  induction oes generalizing sv with
  | nil => exact hs
  | cons oe rest ih => exact ih (bucketStep_sorted hs oe)

theorem extendBucket_itemsWF {sv : List TraitEntry} {oes : List TraitEntry}
    (hs : BucketSorted sv) (hsv : ∀ e ∈ sv, ItemsWF e.value.traitItems)
    (hoes : ∀ e ∈ oes, ItemsWF e.value.traitItems) :
    ∀ e ∈ extendBucket sv oes, ItemsWF e.value.traitItems := by
  induction oes generalizing sv with
  | nil => exact hsv
  | cons oe rest ih =>
    exact ih (bucketStep_sorted hs oe)
      (bucketStep_itemsWF hs hsv (hoes oe (List.mem_cons_self _ _)))
      (fun e he => hoes e (List.mem_cons_of_mem _ he))

theorem extendBucket_bfind (sv : List TraitEntry) (oes : List TraitEntry)
    (hs : BucketSorted sv) (hn : NodupKeysB oes) (k : TraitKey) :
    bfind (extendBucket sv oes) k =
      match bfind oes k with
      | some oe =>
          some (match bfind sv k with
            | some se => mergedEntry se oe
            | none => oe)
      | none => bfind sv k := by
  induction oes generalizing sv with
  | nil => rfl
  | cons oe rest ih =>
    have hnrest : NodupKeysB rest := (List.pairwise_cons.mp hn).2
    have hstep : extendBucket sv (oe :: rest) = extendBucket (bucketStep sv oe) rest := rfl
    rw [hstep, ih (bucketStep sv oe) (bucketStep_sorted hs oe) hnrest]
    by_cases hk : cmpTraitKey oe.key k = .eq
    · have hrest : bfind rest k = none := by
        unfold bfind
        rw [List.find?_eq_none]
        intro e he
        intro hc0
        have hc := ordBeq_true_iff.mp hc0
        have hne := (List.pairwise_cons.mp hn).1 e he
        apply hne
        have h1 : cmpTraitKey e.key oe.key = .eq := by
          rw [cmpLaws_cmpTraitKey.eqRight (cmpLaws_cmpTraitKey.eqSymm hk) e.key] at hc
          exact hc
        exact cmpLaws_cmpTraitKey.eqSymm h1
      rw [hrest]
      have hcons : bfind (oe :: rest) k = some oe := by
        unfold bfind
        rw [List.find?_cons_of_pos _ (by
          show (cmpTraitKey oe.key k == Ordering.eq) = true
          rw [hk]
          decide)]
      rw [hcons]
      rw [bucketStep_bfind sv oe hs k, if_pos hk]
    · have hcons : bfind (oe :: rest) k = bfind rest k := by
        unfold bfind
        rw [List.find?_cons_of_neg _ (by
          show ¬(cmpTraitKey oe.key k == Ordering.eq) = true
          exact fun hc => hk (ordBeq_true_iff.mp hc))]
      rw [hcons]
      have hsb : bfind (bucketStep sv oe) k = bfind sv k := by
        rw [bucketStep_bfind sv oe hs k, if_neg hk]
      cases hr : bfind rest k with
      | none => simp only [hsb]
      | some oe2 => simp only [hsb]

/-! ### Map-level characterization of `TraitMap.extend` -/

theorem extendFold_lookup (other : TraitImpls) (ks : List TypeRootFilter) :
    ∀ (acc : TraitImpls) (rf : TypeRootFilter), ks.Nodup →
      implsLookup
          (ks.foldl
            (fun acc k =>
              implsInsert acc k
                (extendBucket ((implsLookup acc k).getD [])
                  ((implsLookup other k).getD [])))
            acc)
          rf
        = if rf ∈ ks then
            some (extendBucket ((implsLookup acc rf).getD [])
              ((implsLookup other rf).getD []))
          else implsLookup acc rf := by
  induction ks with
  | nil =>
    intro acc rf hn
    simp
  | cons k rest ih =>
    intro acc rf hn
    have hkrest : rest.Nodup := (List.nodup_cons.mp hn).2
    have hknot : k ∉ rest := (List.nodup_cons.mp hn).1
    rw [List.foldl_cons, ih _ rf hkrest]
    by_cases hrfk : rf = k
    · subst hrfk
      rw [if_neg hknot, implsLookup_implsInsert, if_pos rfl, if_pos (List.mem_cons_self _ _)]
    · rw [implsLookup_implsInsert, if_neg hrfk]
      by_cases hrfr : rf ∈ rest
      · rw [if_pos hrfr, if_pos (List.mem_cons_of_mem _ hrfr)]
      · rw [if_neg hrfr, if_neg (by
          intro hc
          rcases List.mem_cons.mp hc with hc | hc
          · exact hrfk hc
          · exact hrfr hc)]

theorem extendBucket_nil (sv : List TraitEntry) : extendBucket sv [] = sv := rfl

theorem extend_bucketOf (eng : Engines) (tm other : TraitMap)
    (hn : (other.traitImpls.map Prod.fst).Nodup) (rf : TypeRootFilter) :
    bucketOf (TraitMap.extend eng tm other) rf
      = extendBucket (bucketOf tm rf) (bucketOf other rf) := by
  have hperm := List.perm_insertionSort trfLE (other.traitImpls.map Prod.fst)
  have hks : (List.insertionSort trfLE (other.traitImpls.map Prod.fst)).Nodup :=
    hperm.nodup_iff.mpr hn
  show ((implsLookup (TraitMap.extend eng tm other).traitImpls rf).getD []) = _
  have hti : (TraitMap.extend eng tm other).traitImpls
      = (List.insertionSort trfLE (other.traitImpls.map Prod.fst)).foldl
          (fun acc k =>
            implsInsert acc k
              (extendBucket ((implsLookup acc k).getD [])
                ((implsLookup other.traitImpls k).getD [])))
          tm.traitImpls := rfl
  rw [hti, extendFold_lookup other.traitImpls _ tm.traitImpls rf hks]
  by_cases hrf : rf ∈ List.insertionSort trfLE (other.traitImpls.map Prod.fst)
  · rw [if_pos hrf]
    rfl
  · rw [if_neg hrf]
    have hrf2 : rf ∉ other.traitImpls.map Prod.fst := fun hc => hrf (hperm.mem_iff.mpr hc)
    show bucketOf tm rf = _
    rw [show bucketOf other rf = [] by
      unfold bucketOf
      rw [implsLookup_eq_none _ _ hrf2]
      rfl]
    rw [extendBucket_nil]

theorem implsInsert_nodupKeys {ti : TraitImpls} (hn : (ti.map Prod.fst).Nodup)
    (k : TypeRootFilter) (v : List TraitEntry) :
    ((implsInsert ti k v).map Prod.fst).Nodup := by
  rw [keys_implsInsert]
  by_cases hk : k ∈ ti.map Prod.fst
  · simpa [hk] using hn
  · simp [hk, List.nodup_append, hn]

theorem extend_nodupKeys (eng : Engines) (tm other : TraitMap)
    (hn : (tm.traitImpls.map Prod.fst).Nodup) :
    (((TraitMap.extend eng tm other).traitImpls).map Prod.fst).Nodup := by
  show (((List.insertionSort trfLE (other.traitImpls.map Prod.fst)).foldl
      (fun acc k =>
        implsInsert acc k
          (extendBucket ((implsLookup acc k).getD [])
            ((implsLookup other.traitImpls k).getD [])))
      tm.traitImpls).map Prod.fst).Nodup
  generalize List.insertionSort trfLE (other.traitImpls.map Prod.fst) = ks
  induction ks generalizing tm with
  | nil => exact hn
  | cons k rest ih =>
    rw [List.foldl_cons]
    exact ih ⟨implsInsert tm.traitImpls k
        (extendBucket ((implsLookup tm.traitImpls k).getD [])
          ((implsLookup other.traitImpls k).getD [])), tm.satisfiedCache,
        tm.insertForTypeCache⟩
      (implsInsert_nodupKeys hn k _)

theorem implsLookup_of_mem {ti : TraitImpls} (hn : (ti.map Prod.fst).Nodup)
    {p : TypeRootFilter × List TraitEntry} (hp : p ∈ ti) :
    implsLookup ti p.1 = some p.2 := by
  induction ti with
  | nil => simp at hp
  | cons q rest ih =>
    rcases List.mem_cons.mp hp with hp | hp
    · rw [hp]
      simp [implsLookup, List.find?_cons_of_pos]
    · have hq : q.1 ≠ p.1 := by
        intro hc
        have : q.1 ∈ rest.map Prod.fst := by
          rw [hc]
          exact List.mem_map_of_mem Prod.fst hp
        exact (List.nodup_cons.mp (by simpa using hn)).1 this
      have hpred : (q.1 == p.1) = false := by
        rw [beq_eq_false_iff_ne]
        exact hq
      unfold implsLookup
      rw [List.find?_cons_of_neg _ (by simp [hpred])]
      exact ih (List.nodup_cons.mp (by simpa using hn)).2 hp

theorem wf_bucket {tm : TraitMap} (h : TraitMapWF tm) (rf : TypeRootFilter) :
    BucketSorted (bucketOf tm rf) ∧ ∀ e ∈ bucketOf tm rf, ItemsWF e.value.traitItems := by
  unfold bucketOf
  cases hl : implsLookup tm.traitImpls rf with
  | none =>
    constructor
    · exact List.Pairwise.nil
    · intro e he
      simp at he
  | some b =>
    unfold implsLookup at hl
    cases hf : List.find? (fun p => p.1 == rf) tm.traitImpls with
    | none => rw [hf] at hl; simp at hl
    | some pair =>
      rw [hf] at hl
      simp at hl
      have hmem := List.mem_of_find?_eq_some hf
      have := h.2 pair hmem
      rw [hl] at this
      exact ⟨this.1, this.2⟩

theorem extend_WF (eng : Engines) {tm other : TraitMap} (h1 : TraitMapWF tm)
    (h2 : TraitMapWF other) : TraitMapWF (TraitMap.extend eng tm other) := by
  constructor
  · exact extend_nodupKeys eng tm other h1.1
  · intro p hp
    have hnres := extend_nodupKeys eng tm other h1.1
    have hlp := implsLookup_of_mem hnres hp
    have hb : bucketOf (TraitMap.extend eng tm other) p.1 = p.2 := by
      unfold bucketOf
      rw [hlp]
      rfl
    rw [extend_bucketOf eng tm other h2.1 p.1] at hb
    rw [← hb]
    constructor
    · exact extendBucket_sorted (wf_bucket h1 p.1).1 _
    · exact extendBucket_itemsWF (wf_bucket h1 p.1).1 (wf_bucket h1 p.1).2
        (wf_bucket h2 p.1).2

theorem extend_satisfiedCache (eng : Engines) (tm other : TraitMap) :
    (TraitMap.extend eng tm other).satisfiedCache = tm.satisfiedCache := rfl

theorem extend_insertForTypeCache (eng : Engines) (tm other : TraitMap) :
    (TraitMap.extend eng tm other).insertForTypeCache = tm.insertForTypeCache := rfl

/-- Entry-level effect of `extend`: the stored entry at a key merges `other`'s entry into
    `self`'s (keeping `self`'s key, extending the item map). -/
theorem extend_entryAt (eng : Engines) {tm other : TraitMap} (h1 : TraitMapWF tm)
    (h2 : TraitMapWF other) (rf : TypeRootFilter) (k : TraitKey) :
    TraitMap.entryAt (TraitMap.extend eng tm other) rf k
      = match TraitMap.entryAt other rf k with
        | some oe =>
            some (match TraitMap.entryAt tm rf k with
              | some se => mergedEntry se oe
              | none => oe)
        | none => TraitMap.entryAt tm rf k := by
  unfold TraitMap.entryAt
  rw [extend_bucketOf eng tm other h2.1 rf]
  exact extendBucket_bfind _ _ (wf_bucket h1 rf).1
    (nodupKeysB_of_sorted (wf_bucket h2 rf).1) k

theorem bfind_mem {xs : List TraitEntry} {k : TraitKey} {e : TraitEntry}
    (h : bfind xs k = some e) : e ∈ xs :=
  List.mem_of_find?_eq_some h

theorem extend_keyAt (eng : Engines) {tm other : TraitMap} (h1 : TraitMapWF tm)
    (h2 : TraitMapWF other) (rf : TypeRootFilter) (k : TraitKey) :
    TraitMap.keyAt (TraitMap.extend eng tm other) rf k
      = (TraitMap.keyAt tm rf k).or (TraitMap.keyAt other rf k) := by
  unfold TraitMap.keyAt
  rw [extend_entryAt eng h1 h2 rf k]
  cases TraitMap.entryAt other rf k with
  | none => cases TraitMap.entryAt tm rf k <;> simp [Option.or]
  | some oe => cases TraitMap.entryAt tm rf k <;> simp [Option.or, mergedEntry]

theorem extend_itemAt (eng : Engines) {tm other : TraitMap} (h1 : TraitMapWF tm)
    (h2 : TraitMapWF other) (rf : TypeRootFilter) (k : TraitKey) (name : String) :
    TraitMap.itemAt (TraitMap.extend eng tm other) rf k name
      = (TraitMap.itemAt other rf k name).or (TraitMap.itemAt tm rf k name) := by
  unfold TraitMap.itemAt
  rw [extend_entryAt eng h1 h2 rf k]
  cases ho : TraitMap.entryAt other rf k with
  | none =>
    cases ht : TraitMap.entryAt tm rf k <;> simp [Option.or]
  | some oe =>
    have hoWF : ItemsWF oe.value.traitItems :=
      (wf_bucket h2 rf).2 oe (bfind_mem ho)
    cases ht : TraitMap.entryAt tm rf k with
    | none =>
      show lookupS oe.value.traitItems name
          = (lookupS oe.value.traitItems name).or none
      cases lookupS oe.value.traitItems name <;> rfl
    | some se =>
      show lookupS (mergedEntry se oe).value.traitItems name = _
      show lookupS (extendS se.value.traitItems oe.value.traitItems) name = _
      rw [lookupS_extendS _ _ name hoWF]
      rfl

/-! ### Claims C8 and C9 -/

/-- C8: for every call `extend(self, other)`, each record of `other` whose `TraitKey`
    compares equal to a record already in `self`'s same bucket has its item map unioned
    into the existing record with `other`'s item winning on a name collision; each record
    with no equal key is inserted at the binary-search-computed sorted position (the
    bucket equals the binary-search merge of the two buckets and stays sorted); `extend`
    never removes an existing record and never re-runs coherence checking (it emits no
    diagnostic and leaves the `satisfied_cache` untouched). -/
theorem C8_extend_merge (eng : Engines) {tm other : TraitMap} (h1 : TraitMapWF tm)
    (h2 : TraitMapWF other) :
    (∀ rf, bucketOf (TraitMap.extend eng tm other) rf
        = extendBucket (bucketOf tm rf) (bucketOf other rf)) ∧
    (∀ rf k name, TraitMap.itemAt (TraitMap.extend eng tm other) rf k name
        = (TraitMap.itemAt other rf k name).or (TraitMap.itemAt tm rf k name)) ∧
    (∀ rf k, TraitMap.keyAt (TraitMap.extend eng tm other) rf k
        = (TraitMap.keyAt tm rf k).or (TraitMap.keyAt other rf k)) ∧
    (∀ rf k kk, TraitMap.keyAt tm rf k = some kk →
        TraitMap.keyAt (TraitMap.extend eng tm other) rf k = some kk) ∧
    TraitMapWF (TraitMap.extend eng tm other) ∧
    (TraitMap.extend eng tm other).satisfiedCache = tm.satisfiedCache := by
  refine ⟨fun rf => extend_bucketOf eng tm other h2.1 rf,
    fun rf k name => extend_itemAt eng h1 h2 rf k name,
    fun rf k => extend_keyAt eng h1 h2 rf k, ?_, extend_WF eng h1 h2,
    extend_satisfiedCache eng tm other⟩
  intro rf k kk hk
  rw [extend_keyAt eng h1 h2 rf k, hk]
  rfl

/-- Closed instantiation of `C8_extend_merge`: merging `mapB` into `mapA` unions the item
    maps of the shared `u64` record and keeps `mapA`'s items. -/
theorem C8_extend_merge_witness :
    TraitMap.itemAt (TraitMap.extend testEngines mapA mapB) TypeRootFilter.u64 keyU64 "g"
        = some itemG2 ∧
    TraitMap.itemAt (TraitMap.extend testEngines mapA mapB) TypeRootFilter.u64 keyU64 "f"
        = some itemF1 := by
  have hA : TraitMapWF mapA := by decide
  have hB : TraitMapWF mapB := by decide
  have h := C8_extend_merge testEngines hA hB
  constructor
  · rw [h.2.1 TypeRootFilter.u64 keyU64 "g"]
    decide
  · rw [h.2.1 TypeRootFilter.u64 keyU64 "f"]
    decide

/-- C9: extension is associative up to bucket contents: both compositions store the same
    record key and the same merged item map at every bucket position, and a record present
    in any of the three inputs is present in the result (no record is lost). -/
theorem C9_extend_assoc (eng : Engines) {A B C : TraitMap}
    (hA : TraitMapWF A) (hB : TraitMapWF B) (hC : TraitMapWF C) :
    (∀ rf k, TraitMap.keyAt (TraitMap.extend eng (TraitMap.extend eng A B) C) rf k
        = TraitMap.keyAt (TraitMap.extend eng A (TraitMap.extend eng B C)) rf k) ∧
    (∀ rf k name,
        TraitMap.itemAt (TraitMap.extend eng (TraitMap.extend eng A B) C) rf k name
          = TraitMap.itemAt (TraitMap.extend eng A (TraitMap.extend eng B C)) rf k name) ∧
    (∀ rf k, TraitMap.keyAt (TraitMap.extend eng (TraitMap.extend eng A B) C) rf k ≠ none
        ↔ (TraitMap.keyAt A rf k ≠ none ∨ TraitMap.keyAt B rf k ≠ none ∨
            TraitMap.keyAt C rf k ≠ none)) := by
  have hAB := extend_WF eng hA hB
  have hBC := extend_WF eng hB hC
  refine ⟨?_, ?_, ?_⟩
  · intro rf k
    rw [extend_keyAt eng hAB hC, extend_keyAt eng hA hB,
      extend_keyAt eng hA hBC, extend_keyAt eng hB hC]
    exact Option.or_assoc
  · intro rf k name
    rw [extend_itemAt eng hAB hC, extend_itemAt eng hA hB,
      extend_itemAt eng hA hBC, extend_itemAt eng hB hC]
    exact Option.or_assoc.symm
  · intro rf k
    rw [extend_keyAt eng hAB hC, extend_keyAt eng hA hB]
    cases TraitMap.keyAt A rf k <;> cases TraitMap.keyAt B rf k <;>
      cases TraitMap.keyAt C rf k <;> simp [Option.or]

/-! ### The constraint-satisfaction oracle and its cache (claims C5 and C6) -/

/-- Exhaustive case shape of `check_if_trait_constraints_are_satisfied_for_type`. -/
theorem check_cases (eng : Engines) (m : Module) (t : TypeId) (cs : List TraitConstraint)
    (sp : Span) :
    (eng.decayNumeric (eng.getUnaliasedId t) = false ∧
      checkIfTraitConstraintsAreSatisfiedForType eng m t cs sp
        = (m, [Diagnostic.numericDecayFailed (eng.getUnaliasedId t) sp], false)) ∨
    (eng.decayNumeric (eng.getUnaliasedId t) = true ∧ cs = [] ∧
      checkIfTraitConstraintsAreSatisfiedForType eng m t cs sp = (m, [], true)) ∨
    (eng.decayNumeric (eng.getUnaliasedId t) = true ∧ cs ≠ [] ∧
      eng.hashQuery (eng.getUnaliasedId t) cs ∈ m.current.satisfiedCache ∧
      checkIfTraitConstraintsAreSatisfiedForType eng m t cs sp = (m, [], true)) ∨
    (eng.decayNumeric (eng.getUnaliasedId t) = true ∧ cs ≠ [] ∧
      eng.hashQuery (eng.getUnaliasedId t) cs ∉ m.current.satisfiedCache ∧
      (((checkConstraintsInner eng (eng.getUnaliasedId t) cs sp
            (getAllImplementedTraits eng m (eng.getUnaliasedId t))).2 = true ∧
          checkIfTraitConstraintsAreSatisfiedForType eng m t cs sp
            = (⟨⟨m.current.traitImpls,
                  eng.hashQuery (eng.getUnaliasedId t) cs :: m.current.satisfiedCache,
                  m.current.insertForTypeCache⟩, m.outerScopes⟩,
               (checkConstraintsInner eng (eng.getUnaliasedId t) cs sp
                 (getAllImplementedTraits eng m (eng.getUnaliasedId t))).1, true)) ∨
        ((checkConstraintsInner eng (eng.getUnaliasedId t) cs sp
            (getAllImplementedTraits eng m (eng.getUnaliasedId t))).2 = false ∧
          checkIfTraitConstraintsAreSatisfiedForType eng m t cs sp
            = (m, (checkConstraintsInner eng (eng.getUnaliasedId t) cs sp
                (getAllImplementedTraits eng m (eng.getUnaliasedId t))).1, false)))) := by
  by_cases hd : eng.decayNumeric (eng.getUnaliasedId t) = true
  · by_cases he : cs = []
    · refine Or.inr (Or.inl ⟨hd, he, ?_⟩)
      unfold checkIfTraitConstraintsAreSatisfiedForType
      simp [hd, he]
    · by_cases hh : eng.hashQuery (eng.getUnaliasedId t) cs ∈ m.current.satisfiedCache
      · refine Or.inr (Or.inr (Or.inl ⟨hd, he, hh, ?_⟩))
        unfold checkIfTraitConstraintsAreSatisfiedForType
        simp [hd, he, hh]
      · refine Or.inr (Or.inr (Or.inr ⟨hd, he, hh, ?_⟩))
        by_cases hi : (checkConstraintsInner eng (eng.getUnaliasedId t) cs sp
            (getAllImplementedTraits eng m (eng.getUnaliasedId t))).2 = true
        · refine Or.inl ⟨hi, ?_⟩
          unfold checkIfTraitConstraintsAreSatisfiedForType
          simp [hd, he, hh, hi]
        · refine Or.inr ⟨by simpa using hi, ?_⟩
          unfold checkIfTraitConstraintsAreSatisfiedForType
          simp [hd, he, hh, hi]
  · refine Or.inl ⟨by simpa using hd, ?_⟩
    unfold checkIfTraitConstraintsAreSatisfiedForType
    simp [hd]

theorem check_cache_subset (eng : Engines) (m : Module) (t : TypeId)
    (cs : List TraitConstraint) (sp : Span) :
    m.current.satisfiedCache ⊆
      (checkIfTraitConstraintsAreSatisfiedForType eng m t cs sp).1.current.satisfiedCache := by
  rcases check_cases eng m t cs sp with ⟨_, hr⟩ | ⟨_, _, hr⟩ | ⟨_, _, _, hr⟩ |
    ⟨_, _, _, ⟨_, hr⟩ | ⟨_, hr⟩⟩ <;> rw [hr]
  · exact fun x hx => hx
  · exact fun x hx => hx
  · exact fun x hx => hx
  · exact fun x hx => List.mem_cons_of_mem _ hx
  · exact fun x hx => hx

theorem constraintsLineUp_cache_subset (eng : Engines)
    (mp np : List TypeParameter) (sp : Span) (m : Module) :
    m.current.satisfiedCache ⊆
      (constraintsLineUp eng m mp np sp).1.current.satisfiedCache := by
  unfold constraintsLineUp
  generalize mp.zip np = l
  show m.current.satisfiedCache ⊆ _
  have hgen : ∀ (st : Module × Bool), st.1.current.satisfiedCache ⊆
      (l.foldl
        (fun st pp =>
          if eng.isConcrete pp.2.typeId then
            let r := checkIfTraitConstraintsAreSatisfiedForType eng st.1 pp.2.typeId
              pp.1.traitConstraints sp
            (r.1, st.2 && r.2.2)
          else st)
        st).1.current.satisfiedCache := by
    induction l with
    | nil => intro st; exact fun x hx => hx
    | cons pp rest ih =>
      intro st
      rw [List.foldl_cons]
      by_cases hc : eng.isConcrete pp.2.typeId
      · simp only [if_pos hc]
        intro x hx
        exact ih _ (check_cache_subset eng st.1 pp.2.typeId pp.1.traitConstraints sp hx)
      · simp only [if_neg hc]
        exact ih st
  exact hgen (m, true)

theorem insertEntryStep_cache_subset (eng : Engines) (tn : CallPathIdent)
    (ta : List TypeId) (tps : List TypeParameter) (t : TypeId) (ti : TraitItems)
    (sp : Span) (s1 s2 : Bool) (st : Module × List Diagnostic) (entry : TraitEntry) :
    st.1.current.satisfiedCache ⊆
      (insertEntryStep eng tn ta tps t ti sp s1 s2 st entry).1.current.satisfiedCache := by
  unfold insertEntryStep
  have hl := constraintsLineUp_cache_subset eng entry.key.typeIdTypeParameters tps sp st.1
  by_cases h1 : (constraintsLineUp eng st.1 entry.key.typeIdTypeParameters tps sp).2 = true
  · simp only [h1]
    split_ifs <;> exact hl
  · simp only [Bool.not_eq_true] at h1
    simp only [h1]
    split_ifs <;> exact hl

theorem insertInner_satisfiedCache (eng : Engines) (tm : TraitMap) (tn : TraitName)
    (sp : Span) (ds : Option Span) (t : TypeId) (tps : List TypeParameter)
    (ti : TraitItems) :
    (TraitMap.insertInner eng tm tn sp ds t tps ti).satisfiedCache = tm.satisfiedCache := by
  unfold TraitMap.insertInner
  exact extend_satisfiedCache eng tm _

theorem insert_cache_subset (eng : Engines) (m : Module) (tn : CallPathIdent)
    (ta : List TypeId) (itp : List TypeParameter) (t : TypeId) (items : List Item)
    (sp : Span) (ds : Option Span) (s1 s2 : Bool) :
    m.current.satisfiedCache ⊆
      (TraitMap.insert eng m tn ta itp t items sp ds s1 s2).1.current.satisfiedCache := by
  unfold TraitMap.insert
  have hscan : ∀ (bucket : List TraitEntry) (st : Module × List Diagnostic),
      st.1.current.satisfiedCache ⊆
        (bucket.foldl
          (insertEntryStep eng tn ta
            (insertTypeParams eng itp (eng.getUnaliasedId t)) (eng.getUnaliasedId t)
            (buildTraitItems items).1 sp s1 s2)
          st).1.current.satisfiedCache := by
    intro bucket
    induction bucket with
    | nil => intro st; exact fun x hx => hx
    | cons e rest ih =>
      intro st
      rw [List.foldl_cons]
      intro x hx
      exact ih _ (insertEntryStep_cache_subset eng tn ta _ _ _ sp s1 s2 st e hx)
  intro x hx
  show x ∈ (TraitMap.insertInner eng
      ((TraitMap.getImplsMut eng m.current (eng.getUnaliasedId t)).2.foldl
        (insertEntryStep eng tn ta (insertTypeParams eng itp (eng.getUnaliasedId t))
          (eng.getUnaliasedId t) (buildTraitItems items).1 sp s1 s2)
        (⟨(TraitMap.getImplsMut eng m.current (eng.getUnaliasedId t)).1,
          m.outerScopes⟩, [])).1.current
      ⟨tn.prefixes, ⟨tn.suffix, ta⟩⟩ sp ds (eng.getUnaliasedId t)
      (insertTypeParams eng itp (eng.getUnaliasedId t))
      (buildTraitItems items).1).satisfiedCache
  rw [insertInner_satisfiedCache]
  exact hscan _ _ hx

/-- C5: the `satisfied_cache` only ever grows: a hash is inserted exactly by a successful
    constraint check (and then it is the query's own hash), a failing check leaves the
    module untouched, a cache hit returns success immediately without consulting the
    stored impls, and neither `insert` nor `extend` evicts an entry (`extend` leaves the
    cache of the target map unchanged; the read-only queries do not return a map at
    all). -/
theorem C5_satisfied_cache_monotone (eng : Engines) :
    (∀ m t cs sp, m.current.satisfiedCache ⊆
      (checkIfTraitConstraintsAreSatisfiedForType eng m t cs sp).1.current.satisfiedCache) ∧
    (∀ m t cs sp x,
      x ∈ (checkIfTraitConstraintsAreSatisfiedForType eng m t cs sp).1.current.satisfiedCache →
      x ∈ m.current.satisfiedCache ∨
        ((checkIfTraitConstraintsAreSatisfiedForType eng m t cs sp).2.2 = true ∧
          x = eng.hashQuery (eng.getUnaliasedId t) cs)) ∧
    (∀ m t cs sp, (checkIfTraitConstraintsAreSatisfiedForType eng m t cs sp).2.2 = false →
      (checkIfTraitConstraintsAreSatisfiedForType eng m t cs sp).1 = m) ∧
    (∀ m t cs sp, eng.decayNumeric (eng.getUnaliasedId t) = true →
      eng.hashQuery (eng.getUnaliasedId t) cs ∈ m.current.satisfiedCache →
      checkIfTraitConstraintsAreSatisfiedForType eng m t cs sp = (m, [], true)) ∧
    (∀ m tn ta itp t items sp ds s1 s2, m.current.satisfiedCache ⊆
      (TraitMap.insert eng m tn ta itp t items sp ds s1 s2).1.current.satisfiedCache) ∧
    (∀ tm other, (TraitMap.extend eng tm other).satisfiedCache = tm.satisfiedCache) := by
  refine ⟨check_cache_subset eng, ?_, ?_, ?_, insert_cache_subset eng,
    fun tm other => extend_satisfiedCache eng tm other⟩
  · intro m t cs sp x hx
    rcases check_cases eng m t cs sp with ⟨_, hr⟩ | ⟨_, _, hr⟩ | ⟨_, _, _, hr⟩ |
      ⟨_, _, _, ⟨hi, hr⟩ | ⟨hi, hr⟩⟩ <;> rw [hr] at hx ⊢
    · exact Or.inl hx
    · exact Or.inl hx
    · exact Or.inl hx
    · rcases List.mem_cons.mp hx with hx | hx
      · exact Or.inr ⟨rfl, hx⟩
      · exact Or.inl hx
    · exact Or.inl hx
  · intro m t cs sp hf
    rcases check_cases eng m t cs sp with ⟨_, hr⟩ | ⟨_, _, hr⟩ | ⟨_, _, _, hr⟩ |
      ⟨_, _, _, ⟨hi, hr⟩ | ⟨hi, hr⟩⟩ <;> rw [hr] at hf ⊢ <;> first | rfl | simp at hf
  · intro m t cs sp hd hh
    rcases check_cases eng m t cs sp with ⟨hd2, hr⟩ | ⟨_, he, hr⟩ | ⟨_, _, _, hr⟩ |
      ⟨_, _, hh2, _⟩
    · rw [hd] at hd2
      exact absurd hd2 (by simp)
    · rw [hr]
    · rw [hr]
    · exact absurd hh hh2

/-- Closed instantiation of `C5_satisfied_cache_monotone`: a module whose cache already
    holds the query hash answers success without touching anything. -/
theorem C5_satisfied_cache_monotone_witness :
    checkIfTraitConstraintsAreSatisfiedForType testEngines ⟨⟨[], [0], []⟩, []⟩ 0
        [⟨trPath, []⟩] 7
      = (⟨⟨[], [0], []⟩, []⟩, [], true) :=
  (C5_satisfied_cache_monotone testEngines).2.2.2.1 ⟨⟨[], [0], []⟩, []⟩ 0
    [⟨trPath, []⟩] 7 (by decide) (by decide)

theorem mem_dedupFirst {l : List (Ident × TypeId)} {y : Ident × TypeId} :
    y ∈ dedupFirst l ↔ y ∈ l := by
  induction l with
  | nil => simp [dedupFirst]
  | cons x rest ih =>
    by_cases hxy : y = x
    · subst hxy
      simp [dedupFirst]
    · simp [dedupFirst, List.mem_cons, List.mem_filter, ih, hxy]

/-- C6: for a type whose numeric decay succeeds, on a fresh (uncached) query the
    constraint check succeeds iff every required constraint has a matching implemented
    trait (identifier equality plus the oracle's subset check) in the set collected over
    the scope chain — the empty list is always satisfied — and on failure the emitted
    diagnostics are exactly one `TraitConstraintNotSatisfied` per unmatched (deduplicated)
    constraint, all in the same call. -/
theorem C6_constraint_satisfaction (eng : Engines) (m : Module) (t : TypeId)
    (cs : List TraitConstraint) (sp : Span)
    (hd : eng.decayNumeric (eng.getUnaliasedId t) = true)
    (hh : eng.hashQuery (eng.getUnaliasedId t) cs ∉ m.current.satisfiedCache) :
    ((checkIfTraitConstraintsAreSatisfiedForType eng m t cs sp).2.2 = true ↔
      ∀ c ∈ cs, constraintMatches eng
        (getAllImplementedTraits eng m (eng.getUnaliasedId t))
        (c.traitName.suffix,
          eng.newCustom c.traitName.suffix
            (if c.typeArguments.isEmpty then none else some c.typeArguments)) = true) ∧
    ((checkIfTraitConstraintsAreSatisfiedForType eng m t cs sp).2.1
      = ((requiredTraitsOf eng cs).filter
          (fun r => !constraintMatches eng
            (getAllImplementedTraits eng m (eng.getUnaliasedId t)) r)).map
          (fun r => Diagnostic.traitConstraintNotSatisfied (eng.getUnaliasedId t)
            (eng.showTypeId (eng.getUnaliasedId t))
            (r.1 ++ customArgsString eng r.2) sp)) ∧
    (cs = [] → checkIfTraitConstraintsAreSatisfiedForType eng m t cs sp = (m, [], true)) := by
  have hiff : ∀ allImpld,
      ((checkConstraintsInner eng (eng.getUnaliasedId t) cs sp allImpld).2 = true ↔
        ∀ c ∈ cs, constraintMatches eng allImpld
          (c.traitName.suffix,
            eng.newCustom c.traitName.suffix
              (if c.typeArguments.isEmpty then none else some c.typeArguments)) = true) := by
    intro allImpld
    show ((requiredTraitsOf eng cs).filter
        (fun r => !constraintMatches eng allImpld r)).isEmpty = true ↔ _
    rw [List.isEmpty_iff, List.filter_eq_nil]
    constructor
    · intro hall c hc
      have hmem : (c.traitName.suffix,
          eng.newCustom c.traitName.suffix
            (if c.typeArguments.isEmpty then none else some c.typeArguments))
          ∈ requiredTraitsOf eng cs :=
        mem_dedupFirst.mpr (List.mem_map.mpr ⟨c, hc, rfl⟩)
      have := hall _ hmem
      simpa using this
    · intro hall r hr
      obtain ⟨c, hc, hce⟩ := List.mem_map.mp (mem_dedupFirst.mp hr)
      have := hall c hc
      rw [hce] at this
      simp [this]
  rcases check_cases eng m t cs sp with ⟨hd2, hr⟩ | ⟨_, he, hr⟩ | ⟨_, _, hh2, _⟩ |
    ⟨_, he, _, hcase⟩
  · rw [hd] at hd2
    exact absurd hd2 (by simp)
  · subst he
    rw [hr]
    refine ⟨by simp, ?_, fun _ => rfl⟩
    simp [requiredTraitsOf, dedupFirst]
  · exact absurd hh2 hh
  · rcases hcase with ⟨hi, hr⟩ | ⟨hi, hr⟩
    · rw [hr]
      refine ⟨?_, rfl, fun hcs => absurd hcs he⟩
      simp only []
      rw [← hiff (getAllImplementedTraits eng m (eng.getUnaliasedId t))]
      simp [hi]
    · rw [hr]
      refine ⟨?_, rfl, fun hcs => absurd hcs he⟩
      simp only []
      rw [← hiff (getAllImplementedTraits eng m (eng.getUnaliasedId t))]
      simp [hi]

/-- Closed instantiation of `C6_constraint_satisfaction`: a module implementing `Tr` for
    `u64` satisfies the constraint `Tr` on `u64`. -/
theorem C6_constraint_satisfaction_witness :
    (checkIfTraitConstraintsAreSatisfiedForType testEngines ⟨mapA, []⟩ 0
      [⟨trPath, []⟩] 7).2.2 = true :=
  (C6_constraint_satisfaction testEngines ⟨mapA, []⟩ 0 [⟨trPath, []⟩] 7
    (by decide) (by decide)).1.mpr (by decide)

/-! ### Claim C1: the conflict-decision rule of `insert` -/

theorem foldl_state_diag_mem {β σ : Type} (step : σ → β → σ) (diagsOf : σ → List Diagnostic)
    (hstep : ∀ s b d, d ∈ diagsOf (step s b) → d ∈ diagsOf s ∨ ¬isConflictDiag d = true) :
    ∀ (l : List β) (s : σ) (d : Diagnostic), d ∈ diagsOf (l.foldl step s) →
      d ∈ diagsOf s ∨ ¬isConflictDiag d = true := by
  intro l
  induction l with
  | nil => intro s d hd; exact Or.inl hd
  | cons b rest ih =>
    intro s d hd
    rw [List.foldl_cons] at hd
    rcases ih (step s b) d hd with hd2 | hd2
    · exact hstep s b d hd2
    · exact Or.inr hd2

theorem dupDeclDiags_filter (eng : Engines) (a b : TraitItems) (t : TypeId) :
    (dupDeclDiags eng a b t).filter isConflictDiag = [] := by
  rw [List.filter_eq_nil]
  intro d hd
  unfold dupDeclDiags at hd
  have := foldl_state_diag_mem
    (fun diags name =>
      match lookupS a name with
      | some item =>
        if (lookupS b name).isSome then
          diags ++ [Diagnostic.duplicateDeclDefinedForType (declKindOf item.kind) item.name
            (eng.showTypeId t) item.span]
        else diags
      | none => diags)
    (fun diags => diags)
    (by
      intro s nm d hd2
      simp only [] at hd2 ⊢
      cases hls : lookupS a nm with
      | none =>
        rw [hls] at hd2
        simp only [] at hd2
        exact Or.inl hd2
      | some item =>
        rw [hls] at hd2
        simp only [] at hd2
        by_cases hb : (lookupS b nm).isSome
        · rw [if_pos hb] at hd2
          rcases List.mem_append.mp hd2 with hd3 | hd3
          · exact Or.inl hd3
          · rcases List.mem_singleton.mp hd3 with rfl
            exact Or.inr (by simp [isConflictDiag])
        · rw [if_neg hb] at hd2
          exact Or.inl hd2)
    (sortedStrings (a.map Prod.fst)) [] d hd
  rcases this with h | h
  · simp at h
  · exact h

theorem buildTraitItems_filter (items : List Item) :
    ((buildTraitItems items).2).filter isConflictDiag = [] := by
  rw [List.filter_eq_nil]
  intro d hd
  unfold buildTraitItems at hd
  have := foldl_state_diag_mem
    (fun (acc : TraitItems × List Diagnostic) (item : Item) =>
      match item.kind with
      | .fnItem =>
        let dup := (lookupS acc.1 item.name).isSome
        (insertS acc.1 item.name item,
          acc.2 ++ if dup then [Diagnostic.multipleDefinitionsOfName item.name item.span]
            else [])
      | _ => (insertS acc.1 item.name item, acc.2))
    (fun acc => acc.2)
    (by
      intro s item d hd2
      simp only [] at hd2 ⊢
      cases hk : item.kind with
      | fnItem =>
        simp only [hk] at hd2
        by_cases hdup : (lookupS s.1 item.name).isSome = true
        · rw [if_pos hdup] at hd2
          rcases List.mem_append.mp hd2 with hd3 | hd3
          · exact Or.inl hd3
          · rcases List.mem_singleton.mp hd3 with rfl
            exact Or.inr (by simp [isConflictDiag])
        · rw [if_neg hdup] at hd2
          simp only [List.append_nil] at hd2
          exact Or.inl hd2
      | constantItem => simp only [hk] at hd2; exact Or.inl hd2
      | typeItem => simp only [hk] at hd2; exact Or.inl hd2)
    items ([], []) d hd
  rcases this with h | h
  · simp at h
  · exact h

theorem insertEntryStep_split (eng : Engines) (tn : CallPathIdent) (ta : List TypeId)
    (tps : List TypeParameter) (t0 : TypeId) (ti : TraitItems) (sp : Span)
    (s1 s2 : Bool) (st : Module × List Diagnostic) (entry : TraitEntry) :
    insertEntryStep eng tn ta tps t0 ti sp s1 s2 st entry
      = ((constraintsLineUp eng st.1 entry.key.typeIdTypeParameters tps sp).1,
         st.2 ++ entryConflictDiags eng tn ta tps t0 ti sp s1 s2 st.1 entry) := by
  unfold insertEntryStep entryConflictDiags
  simp only []
  generalize (constraintsLineUp eng st.1 entry.key.typeIdTypeParameters tps sp) = lu
  generalize (eng.nonGenericConstraintSubset t0 entry.key.typeId &&
    isUnifiedTypeSubset (getUnaliasedInfo eng t0) (getUnaliasedInfo eng entry.key.typeId))
    = tysub
  generalize (if entry.key.name.suffix.name != tn.suffix ||
      entry.key.name.suffix.args.length != ta.length then false
    else (entry.key.name.suffix.args.zip ta).all fun aa =>
      eng.nonGenericConstraintSubset aa.2 aa.1) = trsub
  cases hlu : lu.2 <;> cases tysub <;> cases trsub <;> cases s1 <;> cases s2 <;> simp

theorem entryConflictDiags_filter (eng : Engines) (tn : CallPathIdent) (ta : List TypeId)
    (tps : List TypeParameter) (t0 : TypeId) (ti : TraitItems) (sp : Span)
    (s1 s2 : Bool) (m : Module) (entry : TraitEntry) :
    (entryConflictDiags eng tn ta tps t0 ti sp s1 s2 m entry).filter isConflictDiag
      = (entryConflictCand eng tn ta tps t0 sp s1 s2 m entry).map
          (fun e => Diagnostic.conflictingImplsForTraitAndType
            (toStringWithArgs eng tn ta) (eng.showTypeId t0) e.value.implSpan sp) := by
  unfold entryConflictDiags entryConflictCand
  simp only []
  generalize (constraintsLineUp eng m entry.key.typeIdTypeParameters tps sp) = lu
  generalize (eng.nonGenericConstraintSubset t0 entry.key.typeId &&
    isUnifiedTypeSubset (getUnaliasedInfo eng t0) (getUnaliasedInfo eng entry.key.typeId))
    = tysub
  generalize (if entry.key.name.suffix.name != tn.suffix ||
      entry.key.name.suffix.args.length != ta.length then false
    else (entry.key.name.suffix.args.zip ta).all fun aa =>
      eng.nonGenericConstraintSubset aa.2 aa.1) = trsub
  cases hlu : lu.2 <;> cases tysub <;> cases trsub <;> cases s1 <;> cases s2 <;>
    simp [isConflictDiag, dupDeclDiags_filter]

theorem foldl_insertEntryStep_acc (eng : Engines) (tn : CallPathIdent) (ta : List TypeId)
    (tps : List TypeParameter) (t0 : TypeId) (ti : TraitItems) (sp : Span)
    (s1 s2 : Bool) (bucket : List TraitEntry) :
    ∀ (m : Module) (ds : List Diagnostic),
      bucket.foldl (insertEntryStep eng tn ta tps t0 ti sp s1 s2) (m, ds)
        = ((bucket.foldl (insertEntryStep eng tn ta tps t0 ti sp s1 s2) (m, [])).1,
           ds ++ (bucket.foldl (insertEntryStep eng tn ta tps t0 ti sp s1 s2) (m, [])).2) := by
  induction bucket with
  | nil => intro m ds; simp
  | cons e rest ih =>
    intro m ds
    rw [List.foldl_cons, List.foldl_cons]
    rw [insertEntryStep_split eng tn ta tps t0 ti sp s1 s2 (m, ds) e,
      insertEntryStep_split eng tn ta tps t0 ti sp s1 s2 (m, []) e]
    simp only [List.nil_append]
    rw [ih _ (ds ++ entryConflictDiags eng tn ta tps t0 ti sp s1 s2 m e),
      ih _ (entryConflictDiags eng tn ta tps t0 ti sp s1 s2 m e)]
    simp [List.append_assoc]

theorem candFold_acc (eng : Engines) (tn : CallPathIdent) (ta : List TypeId)
    (tps : List TypeParameter) (t0 : TypeId) (sp : Span) (s1 s2 : Bool)
    (bucket : List TraitEntry) :
    ∀ (m : Module) (acc : List TraitEntry),
      bucket.foldl
          (fun st e =>
            ((constraintsLineUp eng st.1 e.key.typeIdTypeParameters tps sp).1,
              st.2 ++ entryConflictCand eng tn ta tps t0 sp s1 s2 st.1 e))
          (m, acc)
        = ((conflictCandidates eng tn ta tps t0 sp s1 s2 m bucket).1,
           acc ++ (conflictCandidates eng tn ta tps t0 sp s1 s2 m bucket).2) := by
  induction bucket with
  | nil => intro m acc; simp [conflictCandidates]
  | cons e rest ih =>
    intro m acc
    show rest.foldl _
        ((constraintsLineUp eng m e.key.typeIdTypeParameters tps sp).1,
          acc ++ entryConflictCand eng tn ta tps t0 sp s1 s2 m e) = _
    rw [ih _ (acc ++ entryConflictCand eng tn ta tps t0 sp s1 s2 m e)]
    have hrepr : conflictCandidates eng tn ta tps t0 sp s1 s2 m (e :: rest)
        = rest.foldl
            (fun st e =>
              ((constraintsLineUp eng st.1 e.key.typeIdTypeParameters tps sp).1,
                st.2 ++ entryConflictCand eng tn ta tps t0 sp s1 s2 st.1 e))
            ((constraintsLineUp eng m e.key.typeIdTypeParameters tps sp).1,
              [] ++ entryConflictCand eng tn ta tps t0 sp s1 s2 m e) := rfl
    rw [hrepr, List.nil_append,
      ih _ (entryConflictCand eng tn ta tps t0 sp s1 s2 m e)]
    simp [List.append_assoc]

theorem scanFold_filter (eng : Engines) (tn : CallPathIdent) (ta : List TypeId)
    (tps : List TypeParameter) (t0 : TypeId) (ti : TraitItems) (sp : Span)
    (s1 s2 : Bool) (bucket : List TraitEntry) :
    ∀ m : Module,
      ((bucket.foldl (insertEntryStep eng tn ta tps t0 ti sp s1 s2) (m, [])).2).filter
          isConflictDiag
        = ((conflictCandidates eng tn ta tps t0 sp s1 s2 m bucket).2).map
            (fun e => Diagnostic.conflictingImplsForTraitAndType
              (toStringWithArgs eng tn ta) (eng.showTypeId t0) e.value.implSpan sp) ∧
      (bucket.foldl (insertEntryStep eng tn ta tps t0 ti sp s1 s2) (m, [])).1
        = (conflictCandidates eng tn ta tps t0 sp s1 s2 m bucket).1 := by
  induction bucket with
  | nil => intro m; exact ⟨rfl, rfl⟩
  | cons e rest ih =>
    intro m
    rw [List.foldl_cons, insertEntryStep_split eng tn ta tps t0 ti sp s1 s2 (m, []) e]
    simp only [List.nil_append]
    rw [foldl_insertEntryStep_acc eng tn ta tps t0 ti sp s1 s2 rest _
      (entryConflictDiags eng tn ta tps t0 ti sp s1 s2 m e)]
    have hrepr : conflictCandidates eng tn ta tps t0 sp s1 s2 m (e :: rest)
        = rest.foldl
            (fun st e =>
              ((constraintsLineUp eng st.1 e.key.typeIdTypeParameters tps sp).1,
                st.2 ++ entryConflictCand eng tn ta tps t0 sp s1 s2 st.1 e))
            ((constraintsLineUp eng m e.key.typeIdTypeParameters tps sp).1,
              [] ++ entryConflictCand eng tn ta tps t0 sp s1 s2 m e) := rfl
    rw [hrepr, List.nil_append,
      candFold_acc eng tn ta tps t0 sp s1 s2 rest _
        (entryConflictCand eng tn ta tps t0 sp s1 s2 m e)]
    constructor
    · rw [List.filter_append, List.map_append]
      rw [entryConflictDiags_filter eng tn ta tps t0 ti sp s1 s2 m e]
      rw [(ih _).1]
    · exact (ih _).2

/-- C1: for every call to `insert`, the `ConflictingImplsForTraitAndType` diagnostics it
    emits are exactly one per existing record of the query type's own bucket that is not
    skipped by the constraint-lineup check and for which the call is not
    importing-as-extension, not a self-impl, types-are-subset holds (oracle check plus the
    reference-mutability-aware recursive check), and traits-are-subset holds — and no
    other record yields one. -/
theorem C1_insert_conflict_rule (eng : Engines) (m : Module) (tn : CallPathIdent)
    (ta : List TypeId) (itp : List TypeParameter) (t : TypeId) (items : List Item)
    (sp : Span) (ds : Option Span) (isImplSelf isExtending : Bool) :
    ((TraitMap.insert eng m tn ta itp t items sp ds isImplSelf isExtending).2.1).filter
        isConflictDiag
      = ((conflictCandidates eng tn ta (insertTypeParams eng itp (eng.getUnaliasedId t))
            (eng.getUnaliasedId t) sp isImplSelf isExtending
            ⟨(TraitMap.getImplsMut eng m.current (eng.getUnaliasedId t)).1, m.outerScopes⟩
            (TraitMap.getImplsMut eng m.current (eng.getUnaliasedId t)).2).2).map
          (fun e => Diagnostic.conflictingImplsForTraitAndType
            (toStringWithArgs eng tn ta) (eng.showTypeId (eng.getUnaliasedId t))
            e.value.implSpan sp) := by
  show ((buildTraitItems items).2 ++
      ((TraitMap.getImplsMut eng m.current (eng.getUnaliasedId t)).2.foldl
        (insertEntryStep eng tn ta (insertTypeParams eng itp (eng.getUnaliasedId t))
          (eng.getUnaliasedId t) (buildTraitItems items).1 sp isImplSelf isExtending)
        (⟨(TraitMap.getImplsMut eng m.current (eng.getUnaliasedId t)).1,
          m.outerScopes⟩, [])).2).filter isConflictDiag = _
  rw [List.filter_append, buildTraitItems_filter, List.nil_append]
  exact (scanFold_filter eng tn ta (insertTypeParams eng itp (eng.getUnaliasedId t))
    (eng.getUnaliasedId t) (buildTraitItems items).1 sp isImplSelf isExtending
    (TraitMap.getImplsMut eng m.current (eng.getUnaliasedId t)).2
    ⟨(TraitMap.getImplsMut eng m.current (eng.getUnaliasedId t)).1, m.outerScopes⟩).1

/-! ### Claim C3: the new record is always recorded -/

theorem traitMapWF_congr {a b : TraitMap} (h : a.traitImpls = b.traitImpls) :
    TraitMapWF a ↔ TraitMapWF b := by
  unfold TraitMapWF
  rw [h]

theorem itemAt_congr {a b : TraitMap} (h : a.traitImpls = b.traitImpls)
    (rf : TypeRootFilter) (k : TraitKey) (n : String) :
    TraitMap.itemAt a rf k n = TraitMap.itemAt b rf k n := by
  unfold TraitMap.itemAt TraitMap.entryAt bucketOf
  rw [h]

theorem implsInsert_absent {ti : TraitImpls} {k : TypeRootFilter}
    (h : k ∉ ti.map Prod.fst) (v : List TraitEntry) :
    implsInsert ti k v = ti ++ [(k, v)] := by
  induction ti with
  | nil => rfl
  | cons p rest ih =>
    have hk : p.1 ≠ k := by
      intro hc
      exact h (by simp [hc])
    simp only [implsInsert, if_neg hk, List.cons_append]
    rw [ih (fun hc => h (by simp [hc]))]

theorem getImplsMut_WF (eng : Engines) {tm : TraitMap} (h : TraitMapWF tm) (t : TypeId) :
    TraitMapWF (TraitMap.getImplsMut eng tm t).1 := by
  unfold TraitMap.getImplsMut
  by_cases hl : (implsLookup tm.traitImpls (getTypeRootFilter eng t)).isSome = true
  · simpa [hl] using h
  · have habs : getTypeRootFilter eng t ∉ tm.traitImpls.map Prod.fst := by
      intro hc
      obtain ⟨p, hp, hpe⟩ := List.mem_map.mp hc
      apply hl
      rw [← hpe, implsLookup_of_mem h.1 hp]
      rfl
    simp only [hl, if_false]
    show TraitMapWF ⟨implsInsert tm.traitImpls (getTypeRootFilter eng t) [],
      tm.satisfiedCache, tm.insertForTypeCache⟩
    rw [implsInsert_absent habs]
    constructor
    · show ((tm.traitImpls ++ [(getTypeRootFilter eng t, [])]).map Prod.fst).Nodup
      rw [List.map_append]
      rw [List.nodup_append]
      refine ⟨h.1, by simp, ?_⟩
      intro a ha hb
      simp only [List.map_cons, List.map_nil, List.mem_singleton] at hb
      rw [hb] at ha
      exact habs ha
    · intro p hp
      rcases List.mem_append.mp hp with hp | hp
      · exact h.2 p hp
      · rcases List.mem_singleton.mp hp with rfl
        exact ⟨List.Pairwise.nil, by intro e he; simp at he⟩

theorem foldl_invariant {α σ : Type} (P : σ → Prop) (f : σ → α → σ)
    (h : ∀ s a, P s → P (f s a)) (l : List α) :
    ∀ (s : σ), P s → P (l.foldl f s) := by
  induction l with
  | nil => intro s hs; exact hs
  | cons a rest ih =>
    intro s hs
    rw [List.foldl_cons]
    exact ih (f s a) (h s a hs)

theorem getImplsMut_traitImpls (eng : Engines) (tm : TraitMap) (t : TypeId) :
    (TraitMap.getImplsMut eng tm t).1.traitImpls
      = if (implsLookup tm.traitImpls (getTypeRootFilter eng t)).isSome
          then tm.traitImpls
          else implsInsert tm.traitImpls (getTypeRootFilter eng t) [] := rfl

theorem getImplsMut_bucketOf (eng : Engines) (tm : TraitMap) (t : TypeId)
    (rf : TypeRootFilter) :
    bucketOf (TraitMap.getImplsMut eng tm t).1 rf = bucketOf tm rf := by
  unfold bucketOf
  rw [getImplsMut_traitImpls]
  by_cases hl : (implsLookup tm.traitImpls (getTypeRootFilter eng t)).isSome = true
  · rw [if_pos hl]
  · rw [if_neg hl]
    rw [implsLookup_implsInsert]
    by_cases hr : rf = getTypeRootFilter eng t
    · rw [if_pos hr, hr]
      cases he : implsLookup tm.traitImpls (getTypeRootFilter eng t) with
      | none => rfl
      | some v =>
        rw [he] at hl
        exact absurd rfl hl
    · rw [if_neg hr]

theorem itemAt_of_bucketOf {a b : TraitMap} (rf : TypeRootFilter)
    (h : bucketOf a rf = bucketOf b rf) (k : TraitKey) (n : String) :
    TraitMap.itemAt a rf k n = TraitMap.itemAt b rf k n := by
  unfold TraitMap.itemAt TraitMap.entryAt
  rw [h]

theorem check_preserves_impls (eng : Engines) (m : Module) (t : TypeId)
    (cs : List TraitConstraint) (sp : Span) :
    (checkIfTraitConstraintsAreSatisfiedForType eng m t cs sp).1.current.traitImpls
        = m.current.traitImpls ∧
    (checkIfTraitConstraintsAreSatisfiedForType eng m t cs sp).1.outerScopes
        = m.outerScopes := by
  rcases check_cases eng m t cs sp with ⟨_, hr⟩ | ⟨_, _, hr⟩ | ⟨_, _, _, hr⟩ |
    ⟨_, _, _, ⟨_, hr⟩ | ⟨_, hr⟩⟩ <;> rw [hr]
  all_goals exact ⟨rfl, rfl⟩

theorem constraintsLineUp_preserves (eng : Engines) (mp np : List TypeParameter)
    (sp : Span) (m : Module) :
    (constraintsLineUp eng m mp np sp).1.current.traitImpls = m.current.traitImpls ∧
    (constraintsLineUp eng m mp np sp).1.outerScopes = m.outerScopes := by
  unfold constraintsLineUp
  refine foldl_invariant
    (fun st : Module × Bool => st.1.current.traitImpls = m.current.traitImpls ∧
      st.1.outerScopes = m.outerScopes) _ ?_ (mp.zip np) (m, true) ⟨rfl, rfl⟩
  intro st pp hst
  by_cases hc : eng.isConcrete pp.2.typeId = true
  · simp only [if_pos hc]
    have hck := check_preserves_impls eng st.1 pp.2.typeId pp.1.traitConstraints sp
    exact ⟨hck.1.trans hst.1, hck.2.trans hst.2⟩
  · simp only [if_neg hc]
    exact hst

theorem insertEntryStep_preserves (eng : Engines) (tn : CallPathIdent)
    (ta : List TypeId) (tps : List TypeParameter) (t : TypeId) (ti : TraitItems)
    (sp : Span) (s1 s2 : Bool) (st : Module × List Diagnostic) (entry : TraitEntry) :
    (insertEntryStep eng tn ta tps t ti sp s1 s2 st entry).1.current.traitImpls
        = st.1.current.traitImpls ∧
    (insertEntryStep eng tn ta tps t ti sp s1 s2 st entry).1.outerScopes
        = st.1.outerScopes := by
  unfold insertEntryStep
  have hl := constraintsLineUp_preserves eng entry.key.typeIdTypeParameters tps sp st.1
  by_cases h1 : (constraintsLineUp eng st.1 entry.key.typeIdTypeParameters tps sp).2 = true
  · simp only [h1]
    split_ifs <;> exact hl
  · simp only [Bool.not_eq_true] at h1
    simp only [h1]
    split_ifs <;> exact hl

theorem scan_preserves (eng : Engines) (tn : CallPathIdent) (ta : List TypeId)
    (tps : List TypeParameter) (t : TypeId) (ti : TraitItems) (sp : Span)
    (s1 s2 : Bool) (entries : List TraitEntry) (st : Module × List Diagnostic) :
    (entries.foldl (insertEntryStep eng tn ta tps t ti sp s1 s2) st).1.current.traitImpls
        = st.1.current.traitImpls ∧
    (entries.foldl (insertEntryStep eng tn ta tps t ti sp s1 s2) st).1.outerScopes
        = st.1.outerScopes :=
  foldl_invariant
    (fun x : Module × List Diagnostic =>
      x.1.current.traitImpls = st.1.current.traitImpls ∧
        x.1.outerScopes = st.1.outerScopes)
    (insertEntryStep eng tn ta tps t ti sp s1 s2)
    (fun x e hx =>
      ⟨(insertEntryStep_preserves eng tn ta tps t ti sp s1 s2 x e).1.trans hx.1,
        (insertEntryStep_preserves eng tn ta tps t ti sp s1 s2 x e).2.trans hx.2⟩)
    entries st ⟨rfl, rfl⟩

theorem buildTraitItems_WF (items : List Item) : ItemsWF (buildTraitItems items).1 := by
  unfold buildTraitItems
  refine foldl_invariant (fun acc : TraitItems × List Diagnostic => ItemsWF acc.1)
    _ ?_ items ([], []) ?_
  · intro s item hs
    cases item.kind
    all_goals exact itemsWF_insertS hs item.name item
  · show ItemsWF ([] : TraitItems)
    exact List.nodup_nil

theorem singleton_WF (rf : TypeRootFilter) (k : TraitKey) (v : TraitValue)
    (h : ItemsWF v.traitItems) : TraitMapWF ⟨[(rf, [⟨k, v⟩])], [], []⟩ := by
  constructor
  · simp
  · intro p hp
    rcases List.mem_singleton.mp hp with rfl
    refine ⟨?_, ?_⟩
    · show List.Pairwise _ [(⟨k, v⟩ : TraitEntry)]
      exact List.pairwise_singleton _ _
    · intro e he
      rcases List.mem_singleton.mp he with rfl
      exact h

theorem singleton_entryAt (rf : TypeRootFilter) (k : TraitKey) (v : TraitValue) :
    TraitMap.entryAt ⟨[(rf, [⟨k, v⟩])], [], []⟩ rf k = some ⟨k, v⟩ := by
  unfold TraitMap.entryAt bucketOf
  have hlk : implsLookup [(rf, [⟨k, v⟩])] rf = some [⟨k, v⟩] := by
    simp [implsLookup, List.find?]
  rw [hlk]
  show bfind [⟨k, v⟩] k = some ⟨k, v⟩
  unfold bfind
  refine List.find?_cons_of_pos _ ?_
  show (cmpTraitKey k k == Ordering.eq) = true
  rw [cmpLaws_cmpTraitKey.eqRefl k]
  rfl

theorem singleton_itemAt (rf : TypeRootFilter) (k : TraitKey) (v : TraitValue)
    (n : String) :
    TraitMap.itemAt ⟨[(rf, [⟨k, v⟩])], [], []⟩ rf k n = lookupS v.traitItems n := by
  unfold TraitMap.itemAt
  rw [singleton_entryAt rf k v]
  rfl

theorem insertInner_itemAt (eng : Engines) {tm : TraitMap} (h : TraitMapWF tm)
    (tnm : TraitName) (sp : Span) (ds : Option Span) (t : TypeId)
    (tps : List TypeParameter) (ti : TraitItems) (hti : ItemsWF ti) (name : String) :
    TraitMap.itemAt (TraitMap.insertInner eng tm tnm sp ds t tps ti)
        (getTypeRootFilter eng t) ⟨tnm, t, tps, ds⟩ name
      = (lookupS ti name).or
          (TraitMap.itemAt tm (getTypeRootFilter eng t) ⟨tnm, t, tps, ds⟩ name) := by
  have hs : TraitMapWF
      (⟨[(getTypeRootFilter eng t, [⟨⟨tnm, t, tps, ds⟩, ⟨ti, sp⟩⟩])], [], []⟩ : TraitMap) :=
    singleton_WF _ _ _ hti
  have he : TraitMap.insertInner eng tm tnm sp ds t tps ti
      = TraitMap.extend eng tm
          ⟨[(getTypeRootFilter eng t, [⟨⟨tnm, t, tps, ds⟩, ⟨ti, sp⟩⟩])], [], []⟩ := rfl
  rw [he, extend_itemAt eng h hs, singleton_itemAt]

theorem insert_itemAt (eng : Engines) (m : Module) (tn : CallPathIdent)
    (ta : List TypeId) (itp : List TypeParameter) (t : TypeId) (items : List Item)
    (sp : Span) (ds : Option Span) (s1 s2 : Bool) (h : TraitMapWF m.current)
    (name : String) :
    TraitMap.itemAt (TraitMap.insert eng m tn ta itp t items sp ds s1 s2).1.current
        (getTypeRootFilter eng (eng.getUnaliasedId t))
        ⟨⟨tn.prefixes, ⟨tn.suffix, ta⟩⟩, eng.getUnaliasedId t,
          insertTypeParams eng itp (eng.getUnaliasedId t), ds⟩ name
      = (lookupS (buildTraitItems items).1 name).or
          (TraitMap.itemAt m.current (getTypeRootFilter eng (eng.getUnaliasedId t))
            ⟨⟨tn.prefixes, ⟨tn.suffix, ta⟩⟩, eng.getUnaliasedId t,
              insertTypeParams eng itp (eng.getUnaliasedId t), ds⟩ name) := by
  have hcur : (TraitMap.insert eng m tn ta itp t items sp ds s1 s2).1.current
      = TraitMap.insertInner eng
          (((TraitMap.getImplsMut eng m.current (eng.getUnaliasedId t)).2.foldl
              (insertEntryStep eng tn ta
                (insertTypeParams eng itp (eng.getUnaliasedId t))
                (eng.getUnaliasedId t) (buildTraitItems items).1 sp s1 s2)
              (⟨(TraitMap.getImplsMut eng m.current (eng.getUnaliasedId t)).1,
                m.outerScopes⟩, [])).1).current
          ⟨tn.prefixes, ⟨tn.suffix, ta⟩⟩ sp ds (eng.getUnaliasedId t)
          (insertTypeParams eng itp (eng.getUnaliasedId t)) (buildTraitItems items).1 := rfl
  have hpres := scan_preserves eng tn ta (insertTypeParams eng itp (eng.getUnaliasedId t))
    (eng.getUnaliasedId t) (buildTraitItems items).1 sp s1 s2
    (TraitMap.getImplsMut eng m.current (eng.getUnaliasedId t)).2
    (⟨(TraitMap.getImplsMut eng m.current (eng.getUnaliasedId t)).1, m.outerScopes⟩, [])
  have hpres1 : (((TraitMap.getImplsMut eng m.current (eng.getUnaliasedId t)).2.foldl
      (insertEntryStep eng tn ta (insertTypeParams eng itp (eng.getUnaliasedId t))
        (eng.getUnaliasedId t) (buildTraitItems items).1 sp s1 s2)
      (⟨(TraitMap.getImplsMut eng m.current (eng.getUnaliasedId t)).1,
        m.outerScopes⟩, [])).1).current.traitImpls
      = (TraitMap.getImplsMut eng m.current (eng.getUnaliasedId t)).1.traitImpls :=
    hpres.1
  have hWFscan : TraitMapWF
      (((TraitMap.getImplsMut eng m.current (eng.getUnaliasedId t)).2.foldl
          (insertEntryStep eng tn ta (insertTypeParams eng itp (eng.getUnaliasedId t))
            (eng.getUnaliasedId t) (buildTraitItems items).1 sp s1 s2)
          (⟨(TraitMap.getImplsMut eng m.current (eng.getUnaliasedId t)).1,
            m.outerScopes⟩, [])).1).current :=
    (traitMapWF_congr hpres1).mpr (getImplsMut_WF eng h (eng.getUnaliasedId t))
  rw [hcur, insertInner_itemAt eng hWFscan ⟨tn.prefixes, ⟨tn.suffix, ta⟩⟩ sp ds
    (eng.getUnaliasedId t) (insertTypeParams eng itp (eng.getUnaliasedId t))
    (buildTraitItems items).1 (buildTraitItems_WF items) name]
  rw [itemAt_congr hpres1 (getTypeRootFilter eng (eng.getUnaliasedId t))
    ⟨⟨tn.prefixes, ⟨tn.suffix, ta⟩⟩, eng.getUnaliasedId t,
      insertTypeParams eng itp (eng.getUnaliasedId t), ds⟩ name]
  rw [itemAt_of_bucketOf (getTypeRootFilter eng (eng.getUnaliasedId t))
    (getImplsMut_bucketOf eng m.current (eng.getUnaliasedId t)
      (getTypeRootFilter eng (eng.getUnaliasedId t)))
    ⟨⟨tn.prefixes, ⟨tn.suffix, ta⟩⟩, eng.getUnaliasedId t,
      insertTypeParams eng itp (eng.getUnaliasedId t), ds⟩ name]

/-- C3: whatever diagnostics `insert` emits, the new record is still added to the map —
    after any insert on a well-formed current scope, the item stored under the freshly
    built `TraitKey` is the new impl's item, falling back to the previously stored one
    only for names the new impl does not define; and in the concrete two-non-generic-impl
    scenario (same trait, identical type) the first insert emits no diagnostic, the
    second emits exactly one `ConflictingImplsForTraitAndType`, and `itemsForType`
    retrieves the items of both impls. -/
theorem C3_insert_always_records (eng : Engines) (m : Module) (tn : CallPathIdent)
    (ta : List TypeId) (itp : List TypeParameter) (t : TypeId) (items : List Item)
    (sp : Span) (ds : Option Span) (s1 s2 : Bool) (h : TraitMapWF m.current) :
    (∀ name, TraitMap.itemAt (TraitMap.insert eng m tn ta itp t items sp ds s1 s2).1.current
        (getTypeRootFilter eng (eng.getUnaliasedId t))
        ⟨⟨tn.prefixes, ⟨tn.suffix, ta⟩⟩, eng.getUnaliasedId t,
          insertTypeParams eng itp (eng.getUnaliasedId t), ds⟩ name
      = (lookupS (buildTraitItems items).1 name).or
          (TraitMap.itemAt m.current (getTypeRootFilter eng (eng.getUnaliasedId t))
            ⟨⟨tn.prefixes, ⟨tn.suffix, ta⟩⟩, eng.getUnaliasedId t,
              insertTypeParams eng itp (eng.getUnaliasedId t), ds⟩ name)) ∧
    (c3m1.2.1 = [] ∧
      c3m2.2.1 = [Diagnostic.conflictingImplsForTraitAndType "Tr" "ty" 100 200] ∧
      itemF1 ∈ getItemsForType testEngines c3m2.1 0 ∧
      itemG2 ∈ getItemsForType testEngines c3m2.1 0) :=
  ⟨fun name => insert_itemAt eng m tn ta itp t items sp ds s1 s2 h name, by decide⟩

/-- Closed instantiation of `C3_insert_always_records`: inserting the `u64` impl of `Tr`
    into the empty module stores its method `f` under the new key. -/
theorem C3_insert_always_records_witness :
    TraitMapWF emptyModule.current ∧
    TraitMap.itemAt (TraitMap.insert testEngines emptyModule trPath [] [] 0 [itemF1] 100
        none false false).1.current
        (getTypeRootFilter testEngines (testEngines.getUnaliasedId 0))
        ⟨⟨trPath.prefixes, ⟨trPath.suffix, []⟩⟩, testEngines.getUnaliasedId 0,
          insertTypeParams testEngines [] (testEngines.getUnaliasedId 0), none⟩ "f"
      = (lookupS (buildTraitItems [itemF1]).1 "f").or
          (TraitMap.itemAt emptyModule.current
            (getTypeRootFilter testEngines (testEngines.getUnaliasedId 0))
            ⟨⟨trPath.prefixes, ⟨trPath.suffix, []⟩⟩, testEngines.getUnaliasedId 0,
              insertTypeParams testEngines [] (testEngines.getUnaliasedId 0), none⟩ "f") :=
  ⟨by decide, (C3_insert_always_records testEngines emptyModule trPath [] [] 0 [itemF1]
      100 none false false (by decide)).1 "f"⟩

/-! ### Membership characterization of the scope-chain item scan -/

theorem mem_appendFold {α β : Type} (g : β → List α) (l : List β) :
    ∀ (init : List α) (x : α),
      (x ∈ l.foldl (fun acc b => acc ++ g b) init ↔ x ∈ init ∨ ∃ b ∈ l, x ∈ g b) := by
  induction l with
  | nil => intro init x; simp
  | cons b rest ih =>
    intro init x
    rw [List.foldl_cons, ih]
    simp only [List.mem_append, List.mem_cons]
    constructor
    · rintro ((hx | hx) | ⟨c, hc, hxc⟩)
      · exact Or.inl hx
      · exact Or.inr ⟨b, Or.inl rfl, hx⟩
      · exact Or.inr ⟨c, Or.inr hc, hxc⟩
    · rintro (hx | ⟨c, (rfl | hc), hxc⟩)
      · exact Or.inl (Or.inl hx)
      · exact Or.inl (Or.inr hxc)
      · exact Or.inr ⟨c, hc, hxc⟩

theorem mem_condFold {α β : Type} (P : β → Bool) (g : β → List α) (l : List β) :
    ∀ (init : List α) (x : α),
      (x ∈ l.foldl (fun acc b => if P b then acc ++ g b else acc) init ↔
        x ∈ init ∨ ∃ b ∈ l, P b = true ∧ x ∈ g b) := by
  induction l with
  | nil => intro init x; simp
  | cons b rest ih =>
    intro init x
    rw [List.foldl_cons]
    by_cases hb : P b = true
    · rw [if_pos hb, ih]
      simp only [List.mem_append, List.mem_cons]
      constructor
      · rintro ((hx | hx) | ⟨c, hc, hPc, hxc⟩)
        · exact Or.inl hx
        · exact Or.inr ⟨b, Or.inl rfl, hb, hx⟩
        · exact Or.inr ⟨c, Or.inr hc, hPc, hxc⟩
      · rintro (hx | ⟨c, (rfl | hc), hPc, hxc⟩)
        · exact Or.inl (Or.inl hx)
        · exact Or.inl (Or.inr hxc)
        · exact Or.inr ⟨c, hc, hPc, hxc⟩
    · rw [if_neg hb, ih]
      simp only [List.mem_cons]
      constructor
      · rintro (hx | ⟨c, hc, hPc, hxc⟩)
        · exact Or.inl hx
        · exact Or.inr ⟨c, Or.inr hc, hPc, hxc⟩
      · rintro (hx | ⟨c, (rfl | hc), hPc, hxc⟩)
        · exact Or.inl hx
        · exact absurd hPc hb
        · exact Or.inr ⟨c, hc, hPc, hxc⟩

theorem mem_getItemsAndTraitKey (eng : Engines) (m : Module) (t : TypeId)
    (h : ¬eng.getInfo (eng.getUnaliasedId t) = TypeInfo.errorRecovery)
    (x : Item × TraitKey) :
    x ∈ getItemsAndTraitKeyForType eng m t ↔
      ∃ scope ∈ m.scopes,
        ∃ entry ∈ TraitMap.getImpls eng scope (eng.getUnaliasedId t) true,
          eng.constraintSubset (eng.getUnaliasedId t) entry.key.typeId = true ∧
          ∃ p ∈ filterDummyMethods eng entry.value.traitItems (eng.getUnaliasedId t)
              entry.key.typeId,
            (p.2, entry.key) = x := by
  unfold getItemsAndTraitKeyForType
  rw [if_neg h]
  rw [mem_appendFold]
  simp only [mem_condFold, List.not_mem_nil, false_or, List.mem_map]

/-! ### Claim C2: generic/concrete specialization at lookup -/

/-- Refutation of the spec's most-specific-wins sentence: in the specialization scenario
    no conflict is raised, yet `itemsForType(Generic<u64>)` returns the generic impl's
    item `f` as well as the concrete impl's item `g` — the code unions every record
    accepted by the subset oracle instead of picking the most specific one. -/
theorem C2_specialization_counterexample :
    c2m1.2.1 = [] ∧ c2m2.2.1 = [] ∧
    itemG2 ∈ getItemsForType testEngines c2m2.1 5 ∧
    itemF1 ∈ getItemsForType testEngines c2m2.1 5 := by decide

/-- C2 (amended): inserting `impl Tr for Generic<T>` then `impl Tr for Generic<u64>`
    raises no conflict, and `itemsForType(Generic<u64>)` returns the items of **both**
    impls: in general every dummy-filtered item of every record accepted by the oracle's
    subset check is returned (the scan performs no most-specific-wins selection), and in
    the concrete scenario both the concrete impl's item and the generic impl's item are
    in the result. -/
theorem C2_specialization_amended (eng : Engines) (m : Module) (t : TypeId)
    (h : ¬eng.getInfo (eng.getUnaliasedId t) = TypeInfo.errorRecovery)
    (scope : TraitMap) (hs : scope ∈ m.scopes) (entry : TraitEntry)
    (he : entry ∈ TraitMap.getImpls eng scope (eng.getUnaliasedId t) true)
    (hacc : eng.constraintSubset (eng.getUnaliasedId t) entry.key.typeId = true)
    (p : String × Item)
    (hp : p ∈ filterDummyMethods eng entry.value.traitItems (eng.getUnaliasedId t)
        entry.key.typeId) :
    p.2 ∈ getItemsForType eng m t ∧
    (c2m1.2.1 = [] ∧ c2m2.2.1 = [] ∧
      itemG2 ∈ getItemsForType testEngines c2m2.1 5 ∧
      itemF1 ∈ getItemsForType testEngines c2m2.1 5) := by
  constructor
  · unfold getItemsForType
    refine List.mem_map.mpr ⟨(p.2, entry.key), ?_, rfl⟩
    rw [mem_getItemsAndTraitKey eng m t h]
    exact ⟨scope, hs, entry, he, hacc, p, hp, rfl⟩
  · decide

/-- Closed instantiation of `C2_specialization_amended`: the generic impl's item `f` is
    returned for the concrete query type `Generic<u64>`. -/
theorem C2_specialization_amended_witness :
    (¬testEngines.getInfo (testEngines.getUnaliasedId 5) = TypeInfo.errorRecovery) ∧
    itemF1 ∈ getItemsForType testEngines c2m2.1 5 :=
  ⟨by decide,
    (C2_specialization_amended testEngines c2m2.1 5 (by decide) c2m2.1.current (by decide)
      ⟨⟨⟨[], ⟨"Tr", []⟩⟩, 4, [⟨10, []⟩], none⟩, ⟨[("f", itemF1)], 100⟩⟩ (by decide)
      (by decide) ("f", itemF1) (by decide)).1⟩

/-! ### Claim C4: reference mutability -/

theorem isUnifiedTypeSubset_not_ref_left {a b : TypeInfo}
    (h : ∀ mu ty, a ≠ TypeInfo.ref mu ty) : isUnifiedTypeSubset a b = true := by
  cases a <;> cases b <;> first | rfl | exact absurd rfl (h _ _)

theorem isUnifiedTypeSubset_not_ref_right {a b : TypeInfo}
    (h : ∀ mu ty, b ≠ TypeInfo.ref mu ty) : isUnifiedTypeSubset a b = true := by
  cases a <;> cases b <;> first | rfl | exact absurd rfl (h _ _)

theorem refDepthMut_not_ref {a : TypeInfo} (h : ∀ mu ty, a ≠ TypeInfo.ref mu ty) :
    ∀ n, refDepthMut a n = none := by
  intro n
  cases n <;> cases a <;> first | rfl | exact absurd rfl (h _ _)

theorem isUnifiedTypeSubset_eq_false_iff (a b : TypeInfo) :
    isUnifiedTypeSubset a b = false ↔
      ∃ n x y, refDepthMut a n = some x ∧ refDepthMut b n = some y ∧ x ≠ y := by
  induction a generalizing b
  case ref la ta iha =>
    by_cases hbr : ∃ lb tb, b = TypeInfo.ref lb tb
    · obtain ⟨lb, tb, rfl⟩ := hbr
      by_cases hl : la = lb
      · subst hl
        have hred : isUnifiedTypeSubset (TypeInfo.ref la ta) (TypeInfo.ref la tb)
            = isUnifiedTypeSubset ta tb := by
          show (if la != la then false else isUnifiedTypeSubset ta tb)
              = isUnifiedTypeSubset ta tb
          simp
        rw [hred, iha tb]
        constructor
        · rintro ⟨n, x, y, hx, hy, hxy⟩
          exact ⟨n + 1, x, y, hx, hy, hxy⟩
        · rintro ⟨n, x, y, hx, hy, hxy⟩
          cases n with
          | zero =>
            have hxa : la = x := Option.some.inj hx
            have hya : la = y := Option.some.inj hy
            exact absurd (hxa.symm.trans hya) hxy
          | succ k => exact ⟨k, x, y, hx, hy, hxy⟩
      · have hmb : (la != lb) = true := bne_iff_ne.mpr hl
        have hred : isUnifiedTypeSubset (TypeInfo.ref la ta) (TypeInfo.ref lb tb)
            = false := by
          show (if la != lb then false else isUnifiedTypeSubset ta tb) = false
          rw [if_pos hmb]
        rw [hred]
        constructor
        · intro hw
          exact ⟨0, la, lb, rfl, rfl, hl⟩
        · intro hw
          rfl
    · have hnb : ∀ mu ty, b ≠ TypeInfo.ref mu ty := fun mu ty hc => hbr ⟨mu, ty, hc⟩
      rw [isUnifiedTypeSubset_not_ref_right hnb]
      constructor
      · intro hw
        exact absurd hw (by decide)
      · rintro ⟨n, x, y, hx, hy, hxy⟩
        rw [refDepthMut_not_ref hnb n] at hy
        exact Option.noConfusion hy
  all_goals {
    rw [isUnifiedTypeSubset_not_ref_left (fun mu ty hc => TypeInfo.noConfusion hc)]
    constructor
    · intro hw
      exact absurd hw (by decide)
    · rintro ⟨n, x, y, hx, hy, hxy⟩
      rw [refDepthMut_not_ref (fun mu ty hc => TypeInfo.noConfusion hc) n] at hx
      exact Option.noConfusion hx }

/-- C4: `impl Tr for &u64` and `impl Tr for &mut u64` coexist without a conflict
    diagnostic and `itemsForType` keeps their records apart; the recursive pairwise check
    returns `false` exactly when the two types carry references of differing mutability at
    some nesting depth, unwraps one layer only when the mutability agrees, and fails
    immediately on a mutability mismatch. -/
theorem C4_reference_mutability :
    (∀ a b, isUnifiedTypeSubset a b = false ↔
      ∃ n x y, refDepthMut a n = some x ∧ refDepthMut b n = some y ∧ x ≠ y) ∧
    (∀ mu a b, isUnifiedTypeSubset (TypeInfo.ref mu a) (TypeInfo.ref mu b)
        = isUnifiedTypeSubset a b) ∧
    (∀ x y a b, x ≠ y →
      isUnifiedTypeSubset (TypeInfo.ref x a) (TypeInfo.ref y b) = false) ∧
    (c4m1.2.1 = [] ∧ c4m2.2.1 = [] ∧
      getItemsForType testEngines c4m2.1 2 = [itemF1] ∧
      getItemsForType testEngines c4m2.1 3 = [itemG2]) := by
  refine ⟨isUnifiedTypeSubset_eq_false_iff, ?_, ?_, by decide⟩
  · intro mu a b
    show (if mu != mu then false else isUnifiedTypeSubset a b) = isUnifiedTypeSubset a b
    simp
  · intro x y a b hxy
    show (if x != y then false else isUnifiedTypeSubset a b) = false
    rw [if_pos (bne_iff_ne.mpr hxy)]

/-- Closed instantiation of `C4_reference_mutability`: a mutability mismatch at the top
    layer fails the pairwise check. -/
theorem C4_reference_mutability_witness :
    (true : Bool) ≠ false ∧
    isUnifiedTypeSubset (TypeInfo.ref true TypeInfo.boolean)
        (TypeInfo.ref false TypeInfo.boolean) = false :=
  ⟨by decide,
    C4_reference_mutability.2.2.1 true false TypeInfo.boolean TypeInfo.boolean (by decide)⟩

/-! ### Claim C7: trait-item resolution -/

theorem mem_insertS {m : TraitItems} {k : String} {v : Item} {q : String × Item}
    (h : q ∈ insertS m k v) : q = (k, v) ∨ q ∈ m := by
  induction m with
  | nil => simpa [insertS] using h
  | cons p rest ih =>
    by_cases hp : p.1 = k
    · simp only [insertS, if_pos hp, List.mem_cons] at h
      rcases h with h | h
      · exact Or.inl h
      · exact Or.inr (List.mem_cons_of_mem _ h)
    · simp only [insertS, if_neg hp, List.mem_cons] at h
      rcases h with h | h
      · exact Or.inr (by rw [h]; exact List.mem_cons_self _ _)
      · rcases ih h with h2 | h2
        · exact Or.inl h2
        · exact Or.inr (List.mem_cons_of_mem _ h2)

theorem candFold_sound (c : Item × TraitKey → Bool) (kf : Item × TraitKey → String)
    (l : List (Item × TraitKey)) :
    ∀ (acc : TraitItems) (q : String × Item),
      q ∈ l.foldl (fun cands p => if c p then insertS cands (kf p) p.1 else cands) acc →
      q ∈ acc ∨ ∃ p ∈ l, q = (kf p, p.1) ∧ c p = true := by
  induction l with
  | nil => intro acc q h; exact Or.inl h
  | cons r rest ih =>
    intro acc q h
    rw [List.foldl_cons] at h
    by_cases hc : c r = true
    · rw [if_pos hc] at h
      rcases ih _ q h with h2 | ⟨p, hp, hq⟩
      · rcases mem_insertS h2 with h3 | h3
        · exact Or.inr ⟨r, List.mem_cons_self _ _, h3, hc⟩
        · exact Or.inl h3
      · exact Or.inr ⟨p, List.mem_cons_of_mem _ hp, hq⟩
    · rw [if_neg hc] at h
      rcases ih _ q h with h2 | ⟨p, hp, hq⟩
      · exact Or.inl h2
      · exact Or.inr ⟨p, List.mem_cons_of_mem _ hp, hq⟩

theorem candFold_keys_mono (c : Item × TraitKey → Bool) (kf : Item × TraitKey → String)
    (l : List (Item × TraitKey)) :
    ∀ (acc : TraitItems) (k : String), k ∈ acc.map Prod.fst →
      k ∈ (l.foldl
          (fun cands p => if c p then insertS cands (kf p) p.1 else cands) acc).map
        Prod.fst := by
  intro acc k hk
  refine foldl_invariant (fun cands : TraitItems => k ∈ cands.map Prod.fst) _ ?_ l acc hk
  intro cands p hkc
  by_cases hc : c p = true
  · rw [if_pos hc, keys_insertS]
    by_cases hk2 : kf p ∈ cands.map Prod.fst
    · rw [if_pos hk2]
      exact hkc
    · rw [if_neg hk2]
      exact List.mem_append_left _ hkc
  · rw [if_neg hc]
    exact hkc

theorem candFold_complete (c : Item × TraitKey → Bool) (kf : Item × TraitKey → String)
    (l : List (Item × TraitKey)) :
    ∀ (acc : TraitItems) (p : Item × TraitKey), p ∈ l → c p = true →
      kf p ∈ (l.foldl
          (fun cands p => if c p then insertS cands (kf p) p.1 else cands) acc).map
        Prod.fst := by
  induction l with
  | nil => intro acc p hp _; cases hp
  | cons r rest ih =>
    intro acc p hp hc
    rw [List.foldl_cons]
    rcases List.mem_cons.mp hp with rfl | hp2
    · apply candFold_keys_mono c kf rest _ _
      rw [if_pos hc, keys_insertS]
      by_cases hk : kf p ∈ acc.map Prod.fst
      · rw [if_pos hk]
        exact hk
      · rw [if_neg hk]
        exact List.mem_append_right _ (List.mem_singleton_self _)
    · exact ih _ p hp2 hc

/-- C7: `get_trait_item_for_type` candidates are exactly the scanned `(item, key)` pairs
    whose item name equals the symbol and whose rendered owning-trait path matches the
    `as_trait` hint when one is given (keyed by that rendered path); one candidate is a
    success carrying it, zero raises `SymbolNotFound`, and several raise
    `MultipleApplicableItemsInScope` listing each candidate's trait name and span. -/
theorem C7_trait_item_resolution (eng : Engines) (m : Module) (symbol : Ident)
    (t : TypeId) (asTrait : Option CallPathIdent) :
    (∀ q ∈ collectCandidates eng
        (getItemsAndTraitKeyForType eng m (eng.getUnaliasedId t)) symbol asTrait,
      ∃ p ∈ getItemsAndTraitKeyForType eng m (eng.getUnaliasedId t),
        q = (traitNameToString eng p.2.name, p.1) ∧
        (p.1.name == symbol &&
          (asTrait.isNone ||
            (asTrait.map callPathToString).getD "" == traitNameToString eng p.2.name))
          = true) ∧
    (∀ p ∈ getItemsAndTraitKeyForType eng m (eng.getUnaliasedId t),
      (p.1.name == symbol &&
        (asTrait.isNone ||
          (asTrait.map callPathToString).getD "" == traitNameToString eng p.2.name))
        = true →
      traitNameToString eng p.2.name ∈
        (collectCandidates eng (getItemsAndTraitKeyForType eng m (eng.getUnaliasedId t))
            symbol asTrait).map Prod.fst) ∧
    ((collectCandidates eng (getItemsAndTraitKeyForType eng m (eng.getUnaliasedId t))
        symbol asTrait).length = 1 →
      getTraitItemForType eng m symbol t asTrait
        = ([], (collectCandidates eng
            (getItemsAndTraitKeyForType eng m (eng.getUnaliasedId t))
            symbol asTrait).head?.map Prod.snd)) ∧
    ((collectCandidates eng (getItemsAndTraitKeyForType eng m (eng.getUnaliasedId t))
        symbol asTrait).length = 0 →
      getTraitItemForType eng m symbol t asTrait
        = ([Diagnostic.symbolNotFound symbol], none)) ∧
    ((collectCandidates eng (getItemsAndTraitKeyForType eng m (eng.getUnaliasedId t))
        symbol asTrait).length > 1 →
      getTraitItemForType eng m symbol t asTrait
        = ([Diagnostic.multipleApplicableItemsInScope symbol "item"
              ((collectCandidates eng
                  (getItemsAndTraitKeyForType eng m (eng.getUnaliasedId t))
                  symbol asTrait).map fun p =>
                (lastPathSegment p.1, eng.showTypeId (eng.getUnaliasedId t)))
              ((collectCandidates eng
                  (getItemsAndTraitKeyForType eng m (eng.getUnaliasedId t))
                  symbol asTrait).map fun p => p.2.span)], none)) := by
  have hdef : getTraitItemForType eng m symbol t asTrait
      = (if (collectCandidates eng
            (getItemsAndTraitKeyForType eng m (eng.getUnaliasedId t))
            symbol asTrait).length > 1 then
          ([Diagnostic.multipleApplicableItemsInScope symbol "item"
              ((collectCandidates eng
                  (getItemsAndTraitKeyForType eng m (eng.getUnaliasedId t))
                  symbol asTrait).map fun p =>
                (lastPathSegment p.1, eng.showTypeId (eng.getUnaliasedId t)))
              ((collectCandidates eng
                  (getItemsAndTraitKeyForType eng m (eng.getUnaliasedId t))
                  symbol asTrait).map fun p => p.2.span)], none)
        else if (collectCandidates eng
            (getItemsAndTraitKeyForType eng m (eng.getUnaliasedId t))
            symbol asTrait).length < 1 then
          ([Diagnostic.symbolNotFound symbol], none)
        else ([], (collectCandidates eng
            (getItemsAndTraitKeyForType eng m (eng.getUnaliasedId t))
            symbol asTrait).head?.map Prod.snd)) := rfl
  refine ⟨?_, ?_, ?_, ?_, ?_⟩
  · intro q hq
    rcases candFold_sound
        (fun p => p.1.name == symbol &&
          (asTrait.isNone ||
            (asTrait.map callPathToString).getD "" == traitNameToString eng p.2.name))
        (fun p => traitNameToString eng p.2.name)
        (getItemsAndTraitKeyForType eng m (eng.getUnaliasedId t)) [] q hq with
      h | ⟨p, hp, hq2⟩
    · cases h
    · exact ⟨p, hp, hq2⟩
  · intro p hp hc
    exact candFold_complete
      (fun p => p.1.name == symbol &&
        (asTrait.isNone ||
          (asTrait.map callPathToString).getD "" == traitNameToString eng p.2.name))
      (fun p => traitNameToString eng p.2.name)
      (getItemsAndTraitKeyForType eng m (eng.getUnaliasedId t)) [] p hp hc
  · intro h1
    rw [hdef, if_neg (by rw [h1]; decide), if_neg (by rw [h1]; decide)]
  · intro h0
    rw [hdef, if_neg (by rw [h0]; decide), if_pos (by rw [h0]; decide)]
  · intro h2
    rw [hdef, if_pos h2]

/-- Closed instantiation of `C7_trait_item_resolution`: on the coherence-scenario map the
    symbol `g` has exactly one candidate and resolution succeeds with the stored item. -/
theorem C7_trait_item_resolution_witness :
    (collectCandidates testEngines
        (getItemsAndTraitKeyForType testEngines c3m2.1 (testEngines.getUnaliasedId 0))
        "g" none).length = 1 ∧
    getTraitItemForType testEngines c3m2.1 "g" 0 none
      = ([], (collectCandidates testEngines
          (getItemsAndTraitKeyForType testEngines c3m2.1 (testEngines.getUnaliasedId 0))
          "g" none).head?.map Prod.snd) :=
  ⟨by decide, (C7_trait_item_resolution testEngines c3m2.1 "g" 0 none).2.2.1 (by decide)⟩

/-! ### Claim C10: the Placeholder bucket -/

theorem getImpls_true_eq (eng : Engines) (tm : TraitMap) (t : TypeId)
    (h : getTypeRootFilter eng t ≠ TypeRootFilter.placeholder) :
    TraitMap.getImpls eng tm t true
      = bucketOf tm (getTypeRootFilter eng t) ++ bucketOf tm TypeRootFilter.placeholder := by
  have hc : (true && (getTypeRootFilter eng t != TypeRootFilter.placeholder)) = true := by
    rw [Bool.true_and]
    exact bne_iff_ne.mpr h
  show (if true && (getTypeRootFilter eng t != TypeRootFilter.placeholder) then
        (implsLookup tm.traitImpls (getTypeRootFilter eng t)).getD [] ++
          (implsLookup tm.traitImpls TypeRootFilter.placeholder).getD []
      else (implsLookup tm.traitImpls (getTypeRootFilter eng t)).getD [])
      = bucketOf tm (getTypeRootFilter eng t) ++ bucketOf tm TypeRootFilter.placeholder
  rw [if_pos hc]
  rfl

theorem getImpls_false_eq (eng : Engines) (tm : TraitMap) (t : TypeId) :
    TraitMap.getImpls eng tm t false = bucketOf tm (getTypeRootFilter eng t) := by
  have hc : ¬(false && (getTypeRootFilter eng t != TypeRootFilter.placeholder)) = true := by
    rw [Bool.false_and]
    exact Bool.false_ne_true
  show (if false && (getTypeRootFilter eng t != TypeRootFilter.placeholder) then
        (implsLookup tm.traitImpls (getTypeRootFilter eng t)).getD [] ++
          (implsLookup tm.traitImpls TypeRootFilter.placeholder).getD []
      else (implsLookup tm.traitImpls (getTypeRootFilter eng t)).getD [])
      = bucketOf tm (getTypeRootFilter eng t)
  rw [if_neg hc]
  rfl

/-- C10: when the query type's bucket key is not `Placeholder`, the placeholder-extended
    scan equals own bucket plus the `Placeholder` bucket and is what the item lookup and
    the constraint-satisfaction collection consume (an accepted placeholder record's items
    and trait registration are visible to them), while `get_impl_spans_for_type` and the
    trait-name/argument item lookup scan only the query type's own bucket. -/
theorem C10_placeholder_scan (eng : Engines) (m : Module) (t : TypeId)
    (h : getTypeRootFilter eng (eng.getUnaliasedId t) ≠ TypeRootFilter.placeholder)
    (h2 : ¬eng.getInfo (eng.getUnaliasedId t) = TypeInfo.errorRecovery) :
    (∀ tm, TraitMap.getImpls eng tm (eng.getUnaliasedId t) true
      = bucketOf tm (getTypeRootFilter eng (eng.getUnaliasedId t)) ++
        bucketOf tm TypeRootFilter.placeholder) ∧
    (∀ tm, TraitMap.getImpls eng tm (eng.getUnaliasedId t) false
      = bucketOf tm (getTypeRootFilter eng (eng.getUnaliasedId t))) ∧
    (∀ scope ∈ m.scopes, ∀ entry ∈ bucketOf scope TypeRootFilter.placeholder,
      eng.constraintSubset (eng.getUnaliasedId t) entry.key.typeId = true →
      ∀ p ∈ filterDummyMethods eng entry.value.traitItems (eng.getUnaliasedId t)
          entry.key.typeId,
        (p.2, entry.key) ∈ getItemsAndTraitKeyForType eng m t ∧
        p.2 ∈ getItemsForType eng m t) ∧
    (∀ scope ∈ m.scopes, ∀ entry ∈ bucketOf scope TypeRootFilter.placeholder,
      eng.constraintSubset (eng.getUnaliasedId t) entry.key.typeId = true →
      (entry.key.name.suffix.name,
        eng.newCustom entry.key.name.suffix.name
          (if entry.key.name.suffix.args.isEmpty then none
            else some entry.key.name.suffix.args))
        ∈ getAllImplementedTraits eng m (eng.getUnaliasedId t)) ∧
    (getImplSpansForType eng m t
      = m.scopes.foldl
          (fun spans scope =>
            spans ++ (bucketOf scope (getTypeRootFilter eng (eng.getUnaliasedId t))).foldl
              (fun acc entry =>
                if eng.constraintSubset (eng.getUnaliasedId t) entry.key.typeId then
                  acc ++ [entry.value.implSpan]
                else acc)
              [])
          []) ∧
    (∀ tn ta, getItemsForTypeAndTraitNameAndTraitTypeArguments eng m t tn ta
      = m.scopes.foldl
          (fun items scope =>
            items ++ (bucketOf scope (getTypeRootFilter eng (eng.getUnaliasedId t))).foldl
              (fun acc e =>
                if (⟨e.key.name.prefixes, e.key.name.suffix.name⟩ : CallPathIdent) == tn &&
                    eng.constraintSubset (eng.getUnaliasedId t) e.key.typeId &&
                    ta.length == e.key.name.suffix.args.length &&
                    ((ta.zip e.key.name.suffix.args).all fun tt =>
                      eng.constraintSubset tt.1 tt.2) then
                  acc ++ (filterDummyMethods eng e.value.traitItems (eng.getUnaliasedId t)
                      e.key.typeId).map
                    (fun p => eng.substItem p.2 e.key.typeId (eng.getUnaliasedId t))
                else acc)
              [])
          []) := by
  refine ⟨fun tm => getImpls_true_eq eng tm (eng.getUnaliasedId t) h,
    fun tm => getImpls_false_eq eng tm (eng.getUnaliasedId t), ?_, ?_, ?_, ?_⟩
  · intro scope hs entry hent hacc p hp
    have hmem : (p.2, entry.key) ∈ getItemsAndTraitKeyForType eng m t := by
      rw [mem_getItemsAndTraitKey eng m t h2]
      refine ⟨scope, hs, entry, ?_, hacc, p, hp, rfl⟩
      rw [getImpls_true_eq eng scope (eng.getUnaliasedId t) h]
      exact List.mem_append_right _ hent
    exact ⟨hmem, List.mem_map.mpr ⟨(p.2, entry.key), hmem, rfl⟩⟩
  · intro scope hs entry hent hacc
    unfold getAllImplementedTraits
    rw [mem_appendFold]
    refine Or.inr ⟨scope, hs, ?_⟩
    unfold TraitMap.getImplementedTraits
    refine List.mem_filterMap.mpr ⟨entry, ?_, ?_⟩
    · rw [getImpls_true_eq eng scope (eng.getUnaliasedId t) h]
      exact List.mem_append_right _ hent
    · show (if eng.constraintSubset (eng.getUnaliasedId t) entry.key.typeId then
          some (entry.key.name.suffix.name,
            eng.newCustom entry.key.name.suffix.name
              (if entry.key.name.suffix.args.isEmpty then none
                else some entry.key.name.suffix.args))
          else none) = _
      rw [if_pos hacc]
  · show (if eng.getInfo (eng.getUnaliasedId t) = TypeInfo.errorRecovery then []
        else m.scopes.foldl
          (fun spans scope =>
            spans ++ (TraitMap.getImpls eng scope (eng.getUnaliasedId t) false).foldl
              (fun acc entry =>
                if eng.constraintSubset (eng.getUnaliasedId t) entry.key.typeId then
                  acc ++ [entry.value.implSpan]
                else acc)
              [])
          []) = _
    rw [if_neg h2]
    simp only [getImpls_false_eq]
  · intro tn ta
    show (if eng.getInfo (eng.getUnaliasedId t) = TypeInfo.errorRecovery then []
        else m.scopes.foldl
          (fun items scope =>
            items ++ (TraitMap.getImpls eng scope (eng.getUnaliasedId t) false).foldl
              (fun acc e =>
                if (⟨e.key.name.prefixes, e.key.name.suffix.name⟩ : CallPathIdent) == tn &&
                    eng.constraintSubset (eng.getUnaliasedId t) e.key.typeId &&
                    ta.length == e.key.name.suffix.args.length &&
                    ((ta.zip e.key.name.suffix.args).all fun tt =>
                      eng.constraintSubset tt.1 tt.2) then
                  acc ++ (filterDummyMethods eng e.value.traitItems (eng.getUnaliasedId t)
                      e.key.typeId).map
                    (fun p => eng.substItem p.2 e.key.typeId (eng.getUnaliasedId t))
                else acc)
              [])
          []) = _
    rw [if_neg h2]
    simp only [getImpls_false_eq]

/-- Closed instantiation of `C10_placeholder_scan`: for the concrete `u64` query on a map
    with a placeholder-bucket record, the extended scan is the own bucket plus the
    placeholder bucket. -/
theorem C10_placeholder_scan_witness :
    getTypeRootFilter testEngines (testEngines.getUnaliasedId 0)
        ≠ TypeRootFilter.placeholder ∧
    (¬testEngines.getInfo (testEngines.getUnaliasedId 0) = TypeInfo.errorRecovery) ∧
    TraitMap.getImpls testEngines mapAP (testEngines.getUnaliasedId 0) true
      = bucketOf mapAP (getTypeRootFilter testEngines (testEngines.getUnaliasedId 0)) ++
        bucketOf mapAP TypeRootFilter.placeholder :=
  ⟨by decide, by decide,
    (C10_placeholder_scan testEngines emptyModule 0 (by decide) (by decide)).1 mapAP⟩

/-- Closed instantiation of `C9_extend_assoc` on the fixture maps. -/
theorem C9_extend_assoc_witness :
    TraitMap.itemAt
        (TraitMap.extend testEngines (TraitMap.extend testEngines mapA mapB) mapC)
        TypeRootFilter.u64 keyU64 "g"
      = TraitMap.itemAt
        (TraitMap.extend testEngines mapA (TraitMap.extend testEngines mapB mapC))
        TypeRootFilter.u64 keyU64 "g" := by
  have hA : TraitMapWF mapA := by decide
  have hB : TraitMapWF mapB := by decide
  have hC : TraitMapWF mapC := by decide
  exact (C9_extend_assoc testEngines hA hB hC).2.1 TypeRootFilter.u64 keyU64 "g"

end Sway
